import Mathlib

/-!
# oxdeq: a double ended queue over a doubly linked chain of heap nodes

Shallow embedding of `src/oxdeq.c`.

* Pointers are natural numbers, `0` is the null pointer ("absent").
* The program memory `Mem` has one typed heap for `struct oxdeq` objects and one for
  `struct oxqent` nodes.  A heap maps an address to `some` object while the object is
  live, and to `none` before `malloc` returned it and after `free` released it.
* `brk` is the highest address `malloc` has returned so far; `malloc` returns `brk + 1`,
  so it never returns null and a released address is never handed out again.  `malloc` is assumed to succeed (the `exit(2)` paths are not modelled).
* Reading or writing through a pointer that is not live is undefined behaviour in C;
  the model reports it as `Result.fault`.
* Loops run on explicit fuel; running out of fuel is `Result.timeout`.
* `size_t numberOfEntries` is a natural number.  An increment never wraps (each counted
  entry is a live node, and a `size_t` can count every object in memory); a decrement of
  `0` wraps to `SIZE_MAX`.
* A `struct oxval` is its tag `kind` and the member of the union `u` that was stored.  The
  values live in a third typed heap (`VMem`) that shares `brk` with the queue memory.  A C
  string is the list of its characters, a `double` its bit pattern, and the variable
  arguments of `oxval_alloc` are a list of typed items; fetching an argument of the wrong
  type is undefined behaviour.  `exit(2)` is the outcome `Outcome.exit 2`.
-/

namespace Oxdeq

/-- Outcome of running a C function on the modelled memory. -/
inductive Result (α : Type) where
  | ok : α → Result α
  | fault : Result α
  | timeout : Result α
deriving DecidableEq, Repr

/-- A typed heap: `none` marks an address that is not live. -/
abbrev Heap (α : Type) := Nat → Option α

/-- Store `v` at address `p`. -/
def Heap.set {α : Type} (h : Heap α) (p : Nat) (v : Option α) : Heap α :=
  fun a => if a = p then v else h a

/-- The node type `struct oxqent`. -/
structure oxqent where
  left : Nat
  right : Nat
  data : Nat
deriving DecidableEq, Repr

/-- The queue header `struct oxdeq`. -/
structure oxdeq where
  left : Nat
  right : Nat
  e : Nat
  t : Nat
  numberOfEntries : Nat
deriving DecidableEq, Repr

/-- Program memory: the two typed heaps and the highest address `malloc` has returned. -/
structure Mem where
  deq : Heap oxdeq
  ent : Heap oxqent
  brk : Nat

/-- Memory of a program that has not allocated anything yet. -/
def Mem.empty : Mem := { deq := fun _ => none, ent := fun _ => none, brk := 0 }

/-- Largest value of `size_t`. -/
def SIZE_MAX : Nat := 2 ^ 64 - 1

/-- The C expression `n--` on a `size_t`. -/
def size_dec (n : Nat) : Nat := if n = 0 then SIZE_MAX else n - 1

/-- Function `oxdeq_alloc`: a new header with all four pointers null and count 0. -/
def oxdeq_alloc (m : Mem) : Nat × Mem :=
  let q := m.brk + 1
  (q, { deq := m.deq.set q (some { left := 0, right := 0, e := 0, t := 0, numberOfEntries := 0 }),
        ent := m.ent,
        brk := m.brk + 1 })

/-- Function `oxdeq_number_of_entries`: `q ? q->numberOfEntries : 0`. -/
def oxdeq_number_of_entries (q : Nat) (m : Mem) : Result Nat :=
  if q = 0 then .ok 0 else
  match m.deq q with
  | none => .fault
  | some s => .ok s.numberOfEntries

/-- Function `oxdeq_peek_left`: `(q && q->left) ? q->left->data : 0`. -/
def oxdeq_peek_left (q : Nat) (m : Mem) : Result Nat :=
  if q = 0 then .ok 0 else
  match m.deq q with
  | none => .fault
  | some s =>
    if s.left = 0 then .ok 0 else
    match m.ent s.left with
    | none => .fault
    | some l => .ok l.data

/-- Function `oxdeq_peek_right`: `(q && q->right) ? q->right->data : 0`. -/
def oxdeq_peek_right (q : Nat) (m : Mem) : Result Nat :=
  if q = 0 then .ok 0 else
  match m.deq q with
  | none => .fault
  | some s =>
    if s.right = 0 then .ok 0 else
    match m.ent s.right with
    | none => .fault
    | some r => .ok r.data

/-- Function `oxdeq_pop_left`.  The node `q->left` is read for its data and its right link, the
header is moved to the right neighbour (or cleared when there is none), the count is
decremented and the node is freed.  Nothing is written to the right neighbour. -/
def oxdeq_pop_left (q : Nat) (m : Mem) : Result (Nat × Mem) :=
  if q = 0 then .ok (0, m) else
  match m.deq q with
  | none => .fault
  | some s =>
    if s.left = 0 then .ok (0, m) else
    match m.ent s.left with
    | none => .fault
    | some l =>
      let v := l.data
      if v = 0 then .ok (0, m) else
        -- q->e = q->left;
        let e := s.left
        -- if (!q->left->right) q->left = q->right = 0; else q->left = q->left->right;
        let left := if l.right = 0 then 0 else l.right
        let right := if l.right = 0 then 0 else s.right
        -- q->numberOfEntries--; free(q->e); q->e = 0;
        .ok (v, { deq := m.deq.set q (some { left := left, right := right, e := 0, t := s.t,
                                              numberOfEntries := size_dec s.numberOfEntries }),
                  ent := m.ent.set e none,
                  brk := m.brk })

/-- Function `oxdeq_pop_right`, the mirror image of `oxdeq_pop_left`.  Nothing is written to the
left neighbour. -/
def oxdeq_pop_right (q : Nat) (m : Mem) : Result (Nat × Mem) :=
  if q = 0 then .ok (0, m) else
  match m.deq q with
  | none => .fault
  | some s =>
    if s.right = 0 then .ok (0, m) else
    match m.ent s.right with
    | none => .fault
    | some r =>
      let v := r.data
      if v = 0 then .ok (0, m) else
        -- q->e = q->right;
        let e := s.right
        -- if (!q->right->left) q->left = q->right = 0; else q->right = q->right->left;
        let left := if r.left = 0 then 0 else s.left
        let right := if r.left = 0 then 0 else r.left
        -- q->numberOfEntries--; free(q->e); q->e = 0;
        .ok (v, { deq := m.deq.set q (some { left := left, right := right, e := 0, t := s.t,
                                              numberOfEntries := size_dec s.numberOfEntries }),
                  ent := m.ent.set e none,
                  brk := m.brk })

/-- Function `oxdeq_push_left`.  With `q` and `data` both non-null a node is allocated, filled
with `data`, a null left link and the old `q->left` as right link; on an empty queue it
becomes both ends, otherwise the old leftmost node gets it as left neighbour. -/
def oxdeq_push_left (q data : Nat) (m : Mem) : Result (Nat × Mem) :=
  if q = 0 ∨ data = 0 then .ok (q, m) else
  match m.deq q with
  | none => .fault
  | some s =>
    -- q->e = malloc(sizeof(*(q->e)));
    let e := m.brk + 1
    -- q->e->data = data; q->e->left = 0; q->e->right = q->left;
    let ent := m.ent.set e (some { left := 0, right := s.left, data := data })
    if s.left = 0 then
      -- q->left = q->right = q->e;
      .ok (q, { deq := m.deq.set q (some { left := e, right := e, e := 0, t := s.t,
                                            numberOfEntries := s.numberOfEntries + 1 }),
                ent := ent,
                brk := m.brk + 1 })
    else
      -- q->left = q->left->left = q->e;
      match ent s.left with
      | none => .fault
      | some l =>
        .ok (q, { deq := m.deq.set q (some { left := e, right := s.right, e := 0, t := s.t,
                                              numberOfEntries := s.numberOfEntries + 1 }),
                  ent := ent.set s.left (some { left := e, right := l.right, data := l.data }),
                  brk := m.brk + 1 })

/-- Function `oxdeq_push_right`, the mirror image of `oxdeq_push_left`. -/
def oxdeq_push_right (q data : Nat) (m : Mem) : Result (Nat × Mem) :=
  if q = 0 ∨ data = 0 then .ok (q, m) else
  match m.deq q with
  | none => .fault
  | some s =>
    -- q->e = malloc(sizeof(*(q->e)));
    let e := m.brk + 1
    -- q->e->data = data; q->e->left = q->right; q->e->right = 0;
    let ent := m.ent.set e (some { left := s.right, right := 0, data := data })
    if s.right = 0 then
      -- q->left = q->right = q->e;
      .ok (q, { deq := m.deq.set q (some { left := e, right := e, e := 0, t := s.t,
                                            numberOfEntries := s.numberOfEntries + 1 }),
                ent := ent,
                brk := m.brk + 1 })
    else
      -- q->right = q->right->right = q->e;
      match ent s.right with
      | none => .fault
      | some r =>
        .ok (q, { deq := m.deq.set q (some { left := s.left, right := e, e := 0, t := s.t,
                                              numberOfEntries := s.numberOfEntries + 1 }),
                  ent := ent.set s.right (some { left := r.left, right := e, data := r.data }),
                  brk := m.brk + 1 })

/-- The expression `fcopy ? fcopy(data) : data` of `oxdeq_copy`; `fcopy` is `none` for a
null function pointer.  The copy function is a function on element references. -/
def copyOfData (fcopy : Option (Nat → Nat)) (data : Nat) : Nat :=
  match fcopy with
  | some f => f data
  | none => data

/-- The loop of `oxdeq_copy`: `while (q->e) { push_right(c, copy of q->e->data); q->e = q->e->right; }`.
The cursor `q->e` is the parameter `e`; `oxdeq_copy` writes its final value (null) back
to the header. -/
def oxdeq_copy_loop (fcopy : Option (Nat → Nat)) (c : Nat) : Nat → Nat → Mem → Result Mem
  | 0, _, _ => .timeout
  | fuel + 1, e, m =>
    if e = 0 then .ok m else
    match m.ent e with
    | none => .fault
    | some n =>
      -- void *copyOfData = fcopy ? fcopy(q->e->data) : q->e->data;
      -- oxdeq_push_right(c, copyOfData);
      match oxdeq_push_right c (copyOfData fcopy n.data) m with
      | .fault => .fault
      | .timeout => .timeout
      | .ok (_, m1) =>
        -- q->e = q->e->right;
        match m1.ent e with
        | none => .fault
        | some n1 => oxdeq_copy_loop fcopy c fuel n1.right m1

/-- Function `oxdeq_copy`: allocate a new queue `c`; when `q` is non-null and its count is
non-zero, walk the right links from `q->left` and push every (copied) data pointer on the
right of `c`. -/
def oxdeq_copy (fuel : Nat) (q : Nat) (fcopy : Option (Nat → Nat)) (m : Mem) : Result (Nat × Mem) :=
  let (c, m0) := oxdeq_alloc m
  if q = 0 then .ok (c, m0) else
  match m0.deq q with
  | none => .fault
  | some s =>
    if s.numberOfEntries = 0 then .ok (c, m0) else
    -- q->e = q->left; while (q->e) ...
    match oxdeq_copy_loop fcopy c fuel s.left m0 with
    | .fault => .fault
    | .timeout => .timeout
    | .ok m1 =>
      match m1.deq q with
      | none => .fault
      | some s1 =>
        .ok (c, { deq := m1.deq.set q (some { left := s1.left, right := s1.right, e := 0, t := s1.t,
                                               numberOfEntries := s1.numberOfEntries }),
                  ent := m1.ent,
                  brk := m1.brk })

/-- The loop of `oxdeq_reverse` on the cursors `e = q->e` and `t = q->t`:
swap the data of the two nodes, stop when they are neighbours, otherwise move both
cursors one node inwards. -/
def oxdeq_reverse_loop : Nat → Nat → Nat → Heap oxqent → Result (Heap oxqent)
  | 0, _, _, _ => .timeout
  | fuel + 1, e, t, ent =>
    -- while (q->e != q->t)
    if e = t then .ok ent else
    match ent e with
    | none => .fault
    | some ne =>
      match ent t with
      | none => .fault
      | some nt =>
        -- void *tmp = q->e->data; q->e->data = q->t->data; q->t->data = tmp;
        let tmp := ne.data
        let ent1 := ent.set e (some { left := ne.left, right := ne.right, data := nt.data })
        let ent2 := ent1.set t (some { left := nt.left, right := nt.right, data := tmp })
        -- if (q->e->right == q->t) break;
        if ne.right = t then .ok ent2 else
        -- q->e = q->e->right; q->t = q->t->left;
        oxdeq_reverse_loop fuel ne.right nt.left ent2

/-- Function `oxdeq_reverse`: run the swapping loop from both ends, then clear both cursors. -/
def oxdeq_reverse (fuel : Nat) (q : Nat) (m : Mem) : Result (Nat × Mem) :=
  if q = 0 then .ok (q, m) else
  match m.deq q with
  | none => .fault
  | some s =>
    -- q->e = q->left; q->t = q->right;
    match oxdeq_reverse_loop fuel s.left s.right m.ent with
    | .fault => .fault
    | .timeout => .timeout
    | .ok ent =>
      -- q->e = q->t = 0;
      .ok (q, { deq := m.deq.set q (some { left := s.left, right := s.right, e := 0, t := 0,
                                            numberOfEntries := s.numberOfEntries }),
                ent := ent,
                brk := m.brk })

/-! ## Call sequences -/

/-- One call on a queue; `push_left x` and `push_right x` carry the element pointer. -/
inductive Op where
  | push_left : Nat → Op
  | push_right : Nat → Op
  | pop_left : Op
  | pop_right : Op
  | peek_left : Op
  | peek_right : Op
  | count : Op
deriving DecidableEq, Repr

/-- Run one call on the queue at `q`; the second component is the value returned by a
pop, peek or count (`none` for a push, whose return value is `q` itself). -/
def step (q : Nat) (m : Mem) : Op → Result (Mem × Option Nat)
  | .push_left x =>
    match oxdeq_push_left q x m with
    | .ok (_, m1) => .ok (m1, none)
    | .fault => .fault
    | .timeout => .timeout
  | .push_right x =>
    match oxdeq_push_right q x m with
    | .ok (_, m1) => .ok (m1, none)
    | .fault => .fault
    | .timeout => .timeout
  | .pop_left =>
    match oxdeq_pop_left q m with
    | .ok (v, m1) => .ok (m1, some v)
    | .fault => .fault
    | .timeout => .timeout
  | .pop_right =>
    match oxdeq_pop_right q m with
    | .ok (v, m1) => .ok (m1, some v)
    | .fault => .fault
    | .timeout => .timeout
  | .peek_left =>
    match oxdeq_peek_left q m with
    | .ok v => .ok (m, some v)
    | .fault => .fault
    | .timeout => .timeout
  | .peek_right =>
    match oxdeq_peek_right q m with
    | .ok v => .ok (m, some v)
    | .fault => .fault
    | .timeout => .timeout
  | .count =>
    match oxdeq_number_of_entries q m with
    | .ok v => .ok (m, some v)
    | .fault => .fault
    | .timeout => .timeout

/-- Run a sequence of calls on the queue at `q`, collecting the returned values of the
pops, peeks and counts in call order. -/
def run (q : Nat) : List Op → Mem → Result (Mem × List Nat)
  | [], m => .ok (m, [])
  | op :: ops, m =>
    match step q m op with
    | .fault => .fault
    | .timeout => .timeout
    | .ok (m1, out) =>
      match run q ops m1 with
      | .fault => .fault
      | .timeout => .timeout
      | .ok (m2, outs) => .ok (m2, out.toList ++ outs)

/-- Run a sequence of calls on a queue obtained from `oxdeq_alloc`. -/
def runFresh (ops : List Op) (m : Mem) : Result (Mem × List Nat) :=
  run (oxdeq_alloc m).1 ops (oxdeq_alloc m).2

/-- The list model of one call: the new list and the returned value (an absent result
is the null pointer `0`). -/
def listStep (xs : List Nat) : Op → List Nat × Option Nat
  | .push_left x => (x :: xs, none)
  | .push_right x => (xs ++ [x], none)
  | .pop_left => (xs.tail, some (xs.headD 0))
  | .pop_right => (xs.dropLast, some (xs.getLastD 0))
  | .peek_left => (xs, some (xs.headD 0))
  | .peek_right => (xs, some (xs.getLastD 0))
  | .count => (xs, some xs.length)

/-- The list model of a sequence of calls: the final list and the returned values. -/
def listRun : List Op → List Nat → List Nat × List Nat
  | [], xs => (xs, [])
  | op :: ops, xs =>
    let r := listStep xs op
    let rest := listRun ops r.1
    (rest.1, r.2.toList ++ rest.2)

/-- Every pushed element of the call sequence is present (non-null). -/
def pushesPresent (ops : List Op) : Prop :=
  ∀ op ∈ ops, op ≠ Op.push_left 0 ∧ op ≠ Op.push_right 0

/-! ## The data-model invariants -/

/-- Apply a function to the value of a successful run. -/
def Result.map {α β : Type} (f : α → β) : Result α → Result β
  | .ok a => .ok (f a)
  | .fault => .fault
  | .timeout => .timeout

/-- The left end reference, the right end reference and the count of the queue at `q`. -/
def ends (q : Nat) (m : Mem) : Option (Nat × Nat × Nat) :=
  (m.deq q).map fun s => (s.left, s.right, s.numberOfEntries)

/-- Address of the first node of a chain of `(address, data)` pairs; `d` when the chain is empty. -/
def firstAddr : List (Nat × Nat) → Nat → Nat
  | [], d => d
  | c :: _, _ => c.1

/-- Address of the last node of a chain of `(address, data)` pairs; `d` when the chain is empty. -/
def lastAddr : List (Nat × Nat) → Nat → Nat
  | [], d => d
  | c :: cs, _ => lastAddr cs c.1

/-- The heap `ent` holds the doubly linked segment `cs`: the node at each address carries
its data, its left link is the address before it (`prev` for the first node) and its right
link is the address after it (`next` for the last node). -/
def dseg (ent : Heap oxqent) : Nat → List (Nat × Nat) → Nat → Prop
  | _, [], _ => True
  | prev, c :: cs, next =>
    ent c.1 = some { left := prev, right := firstAddr cs next, data := c.2 } ∧ dseg ent c.1 cs next

instance dseg.decide (ent : Heap oxqent) :
    (prev : Nat) → (cs : List (Nat × Nat)) → (next : Nat) → Decidable (dseg ent prev cs next)
  | _, [], _ => isTrue trivial
  | prev, c :: cs, next =>
    match decEq (ent c.1) (some { left := prev, right := firstAddr cs next, data := c.2 }),
          dseg.decide ent c.1 cs next with
    | isTrue h1, isTrue h2 => isTrue ⟨h1, h2⟩
    | isFalse h1, _ => isFalse fun h => h1 h.1
    | _, isFalse h2 => isFalse fun h => h2 h.2

/-- The data-model invariants of the queue at `q`, whose nodes from left to right are the
`(address, data)` pairs `cs`: `q` is a live non-null header, its end references are the
first and the last node (both null when there is none), its count is the number of nodes,
the nodes are distinct live non-null addresses linked in both directions, and the outer
links of the two end nodes are null.  The header and the nodes lie at addresses that
`malloc` has handed out (at most `brk`).  Nothing is asked of the data pointers, nor of
the cursors `e` and `t`. -/
def WF (m : Mem) (q : Nat) (cs : List (Nat × Nat)) : Prop :=
  q ≠ 0 ∧ q ≤ m.brk ∧
  ends q m = some (firstAddr cs 0, lastAddr cs 0, cs.length) ∧
  dseg m.ent 0 cs 0 ∧
  (cs.map Prod.fst).Nodup ∧
  ∀ c ∈ cs, c.1 ≠ 0 ∧ c.1 ≤ m.brk

instance WF.decide (m : Mem) (q : Nat) (cs : List (Nat × Nat)) : Decidable (WF m q cs) := by
  unfold WF
  exact inferInstance

/-- Follow the right links from `p`, collecting the data pointers, until a null link. -/
def walk_right (ent : Heap oxqent) : Nat → Nat → Result (List Nat)
  | 0, _ => .timeout
  | fuel + 1, p =>
    if p = 0 then .ok [] else
    match ent p with
    | none => .fault
    | some n => (walk_right ent fuel n.right).map (n.data :: ·)

/-- The left-to-right sequence of element references of the queue at `q`: the data of the
nodes met on the way from `q->left` along the right links. -/
def elements (fuel : Nat) (q : Nat) (m : Mem) : Result (List Nat) :=
  match m.deq q with
  | none => .fault
  | some s => walk_right m.ent fuel s.left

/-- The node addresses of `cs` carrying the data of `cs` in reverse order. -/
def revData (cs : List (Nat × Nat)) : List (Nat × Nat) :=
  List.zip (cs.map Prod.fst) (cs.map Prod.snd).reverse

/-- A call that pushes at either end. -/
def Op.isPush : Op → Bool
  | .push_left _ => true
  | .push_right _ => true
  | _ => false

/-- A call that pushes a present (non-null) element at either end. -/
def Op.isPresentPush : Op → Bool
  | .push_left x => x != 0
  | .push_right x => x != 0
  | _ => false

/-- Sequencing of two runs. -/
def Result.bind {α β : Type} (r : Result α) (f : α → Result β) : Result β :=
  match r with
  | .ok a => f a
  | .fault => .fault
  | .timeout => .timeout

instance pushesPresent.decide (ops : List Op) : Decidable (pushesPresent ops) := by
  unfold pushesPresent
  exact inferInstance

/-- A memory with one queue: the header at address 1 and the nodes at the addresses 2, 3
and 4 carrying 7, 8 and 9 from left to right. -/
def exampleMem : Mem :=
  { deq := fun a => if a = 1 then some { left := 2, right := 4, e := 0, t := 0, numberOfEntries := 3 }
                    else none,
    ent := fun a => if a = 2 then some { left := 0, right := 3, data := 7 }
                    else if a = 3 then some { left := 2, right := 4, data := 8 }
                    else if a = 4 then some { left := 3, right := 0, data := 9 }
                    else none,
    brk := 4 }

/-- The nodes of the queue of `exampleMem` as `(address, data)` pairs. -/
def exampleCells : List (Nat × Nat) := [(2, 7), (3, 8), (4, 9)]

/-- The scenario `push_right(1); push_right(2); push_right(3); reverse; pop_left` on a new
queue in an empty memory.  The result lists the element sequence after the pushes, the
sequence after the reversal, the value returned by the pop, the sequence after the pop and
the count after the pop. -/
def scenario (fuel : Nat) : Result (List Nat × List Nat × Nat × List Nat × Nat) :=
  let q := (oxdeq_alloc Mem.empty).1
  let m0 := (oxdeq_alloc Mem.empty).2
  (oxdeq_push_right q 1 m0).bind fun r1 =>
  (oxdeq_push_right q 2 r1.2).bind fun r2 =>
  (oxdeq_push_right q 3 r2.2).bind fun r3 =>
  (elements fuel q r3.2).bind fun pushed =>
  (oxdeq_reverse fuel q r3.2).bind fun r4 =>
  (elements fuel q r4.2).bind fun reversed =>
  (oxdeq_pop_left q r4.2).bind fun r5 =>
  (elements fuel q r5.2).bind fun remaining =>
  (oxdeq_number_of_entries q r5.2).map fun n => (pushed, reversed, r5.1, remaining, n)

/-- The left and right neighbour links of the node at address `a`, if it is live. -/
def links (ent : Heap oxqent) (a : Nat) : Option (Nat × Nat) :=
  (ent a).map fun n => (n.left, n.right)

/-- The scratch cursors `e` and `t` of the queue at `q`. -/
def cursors (q : Nat) (m : Mem) : Option (Nat × Nat) :=
  (m.deq q).map fun s => (s.e, s.t)

/-- A chain that is linked in one direction only: the node at each address of `cs` is live,
carries its data, and its link `link` (the right link for a chain listed from left to
right, the left link for a chain listed from right to left) is the address that follows it
in `cs`, `endp` for the last one.  The other link of a node is not constrained. -/
def chain (link : oxqent → Nat) (ent : Heap oxqent) : List (Nat × Nat) → Nat → Prop
  | [], _ => True
  | c :: cs, endp =>
    (ent c.1).map (fun n => (link n, n.data)) = some (firstAddr cs endp, c.2) ∧
      chain link ent cs endp

/-- The queue at `q` is in the empty state: both end references absent and count 0, and a
further pop at either end returns absent and leaves the memory as it is. -/
def drained (q : Nat) (m : Mem) : Prop :=
  ends q m = some (0, 0, 0) ∧ oxdeq_pop_left q m = .ok (0, m) ∧ oxdeq_pop_right q m = .ok (0, m)

/-! ## Tagged values -/

/-- A C `double`, kept as its bit pattern: the code stores it and computes nothing with it. -/
structure c_double where
  bits : Nat
deriving DecidableEq, Repr

/-- The tag `kind` of `struct oxval`. -/
inductive oxkind where
  | oxtBool : oxkind
  | oxtNumber : oxkind
  | oxtQueue : oxkind
  | oxtSymbol : oxkind
  | oxtText : oxkind
deriving DecidableEq, Repr

/-- The tag `u.number.kind` of a number. -/
inductive oxnumkind where
  | oxtInteger : oxnumkind
  | oxtReal : oxnumkind
deriving DecidableEq, Repr

/-- The union `u.number.value`: the member that was stored. -/
inductive oxnumvalue where
  | integer : Int → oxnumvalue
  | real : c_double → oxnumvalue
deriving DecidableEq, Repr

/-- The union `u` of `struct oxval`: the member that was stored.  A C string is the list of
its characters before the terminator; the `char *` members of `text` and `symbol` point at
the inline storage `data` of the value itself and are kept as the string stored there. -/
inductive oxval_u where
  | boolean : (boolean : Int) → oxval_u
  | queue : (queue : Nat) → oxval_u
  | number : (value : oxnumvalue) → (isNull : Int) → (kind : oxnumkind) → oxval_u
  | text : (value : List Nat) → (length : Int) → (isNull : Int) → oxval_u
  | symbol : (name : List Nat) → (value : Nat) → oxval_u
deriving DecidableEq, Repr

/-- The value type `struct oxval`. -/
structure oxval where
  u : oxval_u
  kind : oxkind
deriving DecidableEq, Repr

/-- Program memory with values: the queue memory plus the heap of `struct oxval` objects.
A cell `some none` is allocated and not yet written.  All objects share `mem.brk`. -/
structure VMem where
  mem : Mem
  val : Heap (Option oxval)

/-- Memory of a program that has not allocated anything yet. -/
def VMem.empty : VMem := { mem := Mem.empty, val := fun _ => none }

/-- Outcome of running a value constructor: a return, `exit(status)`, undefined behaviour,
or fuel exhausted in a loop. -/
inductive Outcome (α : Type) where
  | ret : α → Outcome α
  | exit : Nat → Outcome α
  | fault : Outcome α
  | timeout : Outcome α
deriving DecidableEq, Repr

/-- One variable argument of a call.  A `const char *` is `none` when null and otherwise the
string it points at; the other pointers are addresses. -/
inductive va_item where
  | int : Int → va_item
  | double : c_double → va_item
  | ptr : Nat → va_item
  | str : Option (List Nat) → va_item
deriving DecidableEq, Repr

/-- The local variables of `oxval_alloc` that receive the variable arguments. -/
structure va_locals where
  boolean : Int
  integer : Int
  name : Option (List Nat)
  queue : Nat
  real : c_double
  text : Option (List Nat)
  value : Nat
deriving DecidableEq, Repr

/-- The initial values of the locals of `oxval_alloc`. -/
def va_locals.zero : va_locals :=
  { boolean := 0, integer := 0, name := none, queue := 0, real := { bits := 0 }, text := none,
    value := 0 }

/-- The first `switch (type)` of `oxval_alloc`: fetch the arguments that the selector asks
for with `va_arg`.  Fetching an argument that was not passed, or one of another type, is
undefined behaviour (`none`).  An unknown selector fetches nothing. -/
def va_fetch (type : Char) (ap : List va_item) : Option va_locals :=
  let d := va_locals.zero
  if type = 'b' then
    match ap with
    | .int i :: _ => some { d with boolean := i }
    | _ => none
  else if type = 'd' then
    match ap with
    | .double r :: _ => some { d with real := r }
    | _ => none
  else if type = 'f' then
    match ap with
    | .double r :: _ => some { d with real := r }
    | _ => none
  else if type = 'i' then
    match ap with
    | .int i :: _ => some { d with integer := i }
    | _ => none
  else if type = 'q' then
    match ap with
    | .ptr p :: _ => some { d with queue := p }
    | _ => none
  else if type = 's' then
    match ap with
    | .str n :: .ptr p :: _ => some { d with name := n, value := p }
    | _ => none
  else if type = 't' then
    match ap with
    | .str s :: _ => some { d with text := s }
    | _ => none
  else some d

/-- The call `malloc(sizeof(*v) + len)` for a value: the new address and the memory in
which it is allocated and holds `cell`. -/
def malloc_val (vm : VMem) (cell : Option oxval) : Nat × VMem :=
  (vm.mem.brk + 1,
   { mem := { deq := vm.mem.deq, ent := vm.mem.ent, brk := vm.mem.brk + 1 },
     val := vm.val.set (vm.mem.brk + 1) (some cell) })

/-- Function `oxval_alloc_boolean`: kind `oxtBool`, flag `value ? -1 : 0`. -/
def oxval_alloc_boolean (value : Int) (vm : VMem) : Nat × VMem :=
  malloc_val vm (some { kind := .oxtBool, u := .boolean (if value ≠ 0 then -1 else 0) })

/-- Function `oxval_alloc_integer`: kind `oxtNumber`, subkind `oxtInteger`, null flag
`isNull ? -1 : 0` and the integer. -/
def oxval_alloc_integer (value : Int) (isNull : Int) (vm : VMem) : Nat × VMem :=
  malloc_val vm (some { kind := .oxtNumber,
                        u := .number (.integer value) (if isNull ≠ 0 then -1 else 0) .oxtInteger })

/-- Function `oxval_alloc_real`: kind `oxtNumber`, subkind `oxtReal`, null flag
`isNull ? -1 : 0` and the real. -/
def oxval_alloc_real (value : c_double) (isNull : Int) (vm : VMem) : Nat × VMem :=
  malloc_val vm (some { kind := .oxtNumber,
                        u := .number (.real value) (if isNull ≠ 0 then -1 else 0) .oxtReal })

/-- Function `oxval_alloc_queue`: kind `oxtQueue`; the queue is a shallow `oxdeq_copy` of a
non-null argument and a new `oxdeq_alloc` queue for a null one; a null result is fatal. -/
def oxval_alloc_queue (fuel : Nat) (queue : Nat) (vm : VMem) : Outcome (Nat × VMem) :=
  -- oxval *v = malloc(sizeof(*v)); v->kind = oxtQueue;
  let v := (malloc_val vm none).1
  let vm0 := (malloc_val vm none).2
  -- if (queue) v->u.queue = oxdeq_copy(queue, 0); else v->u.queue = oxdeq_alloc();
  let r := if queue ≠ 0 then oxdeq_copy fuel queue none vm0.mem else .ok (oxdeq_alloc vm0.mem)
  match r with
  | .fault => .fault
  | .timeout => .timeout
  | .ok (c, m1) =>
    -- if (!v->u.queue) { perror(__FUNCTION__); exit(2); }
    if c = 0 then .exit 2 else
    .ret (v, { mem := m1, val := vm0.val.set v (some (some { kind := .oxtQueue, u := .queue c })) })

/-- Function `oxval_alloc_symbol`: kind `oxtSymbol`, a copy of the name (the empty string
for a null name) and the value reference. -/
def oxval_alloc_symbol (name : Option (List Nat)) (value : Nat) (vm : VMem) : Nat × VMem :=
  -- strcpy(v->u.symbol.name, name ? name : "");
  malloc_val vm (some { kind := .oxtSymbol, u := .symbol (name.getD []) value })

/-- Function `oxval_alloc_text`: kind `oxtText`, null flag `value ? 0 : -1`, length
`value ? strlen(value) : 0` and a copy of the text (the empty string for a null text). -/
def oxval_alloc_text (value : Option (List Nat)) (vm : VMem) : Nat × VMem :=
  -- ssize_t len = value ? strlen(value) : 0;
  let len : Int := match value with
    | some s => s.length
    | none => 0
  -- strcpy(v->u.text.value, value ? value : "");
  malloc_val vm (some { kind := .oxtText,
                        u := .text (value.getD []) len (if value.isSome then 0 else -1) })

/-- Function `oxval_alloc`: allocate a value that is never used again, fetch the variable
arguments for the selector, and hand over to the constructor of the selector; an unknown
selector ends the process with `exit(2)`. -/
def oxval_alloc (fuel : Nat) (type : Char) (isNull : Int) (ap : List va_item) (vm : VMem) :
    Outcome (Nat × VMem) :=
  -- oxval *v = malloc(sizeof(*v));
  let vm0 := (malloc_val vm none).2
  match va_fetch type ap with
  | none => .fault
  | some l =>
    if type = 'b' then .ret (oxval_alloc_boolean l.boolean vm0)
    else if type = 'd' then .ret (oxval_alloc_real l.real isNull vm0)
    else if type = 'f' then .ret (oxval_alloc_real l.real isNull vm0)
    else if type = 'i' then .ret (oxval_alloc_integer l.integer isNull vm0)
    else if type = 'q' then oxval_alloc_queue fuel l.queue vm0
    else if type = 's' then .ret (oxval_alloc_symbol l.name l.value vm0)
    else if type = 't' then .ret (oxval_alloc_text (if isNull ≠ 0 then none else l.text) vm0)
    -- fprintf(stderr, "error:\tinvalid type ..."); exit(2);
    else .exit 2

/-- The value stored at address `v`, if `v` is a live, written value. -/
def value_at (v : Nat) (vm : VMem) : Option oxval :=
  (vm.val v).bind id

/-- The value that a run has constructed: the value stored at the returned address. -/
def made (o : Outcome (Nat × VMem)) : Option oxval :=
  match o with
  | .ret r => value_at r.1 r.2
  | _ => none

@[simp] theorem Heap.set_same {α : Type} (h : Heap α) (p : Nat) (v : Option α) :
    (h.set p v) p = v := by
  simp [Heap.set]

theorem Heap.set_other {α : Type} (h : Heap α) {a p : Nat} (v : Option α) (hne : a ≠ p) :
    (h.set p v) a = h a := by
  simp [Heap.set, hne]

@[simp] theorem firstAddr_nil (d : Nat) : firstAddr [] d = d := rfl

@[simp] theorem firstAddr_cons (c : Nat × Nat) (cs : List (Nat × Nat)) (d : Nat) :
    firstAddr (c :: cs) d = c.1 := rfl

@[simp] theorem lastAddr_nil (d : Nat) : lastAddr [] d = d := rfl

@[simp] theorem lastAddr_cons (c : Nat × Nat) (cs : List (Nat × Nat)) (d : Nat) :
    lastAddr (c :: cs) d = lastAddr cs c.1 := rfl

@[simp] theorem lastAddr_snoc (cs : List (Nat × Nat)) (c : Nat × Nat) (d : Nat) :
    lastAddr (cs ++ [c]) d = c.1 := by
  induction cs generalizing d with
  | nil => rfl
  | cons x xs ih => simpa [lastAddr] using ih x.1

@[simp] theorem firstAddr_snoc (cs : List (Nat × Nat)) (c : Nat × Nat) (d : Nat) :
    firstAddr (cs ++ [c]) d = firstAddr cs c.1 := by
  cases cs <;> rfl

/-- A segment only depends on the heap at its own addresses. -/
theorem dseg_frame {ent ent1 : Heap oxqent} {cs : List (Nat × Nat)} {prev next : Nat}
    (hagree : ∀ c ∈ cs, ent1 c.1 = ent c.1) (h : dseg ent prev cs next) :
    dseg ent1 prev cs next := by
  induction cs generalizing prev with
  | nil => trivial
  | cons x xs ih =>
    refine ⟨?_, ih (fun c hc => hagree c (List.mem_cons_of_mem _ hc)) h.2⟩
    rw [hagree x (List.mem_cons_self _ _)]
    exact h.1

/-- A segment read from its right end. -/
theorem dseg_snoc {ent : Heap oxqent} {cs : List (Nat × Nat)} {c : Nat × Nat} {prev next : Nat} :
    dseg ent prev (cs ++ [c]) next ↔
      dseg ent prev cs c.1 ∧
        ent c.1 = some { left := lastAddr cs prev, right := next, data := c.2 } := by
  induction cs generalizing prev with
  | nil => simp [dseg]
  | cons x xs ih =>
    show (ent x.1 = some { left := prev, right := firstAddr (xs ++ [c]) next, data := x.2 } ∧
        dseg ent x.1 (xs ++ [c]) next) ↔
      ((ent x.1 = some { left := prev, right := firstAddr xs c.1, data := x.2 } ∧
        dseg ent x.1 xs c.1) ∧
        ent c.1 = some { left := lastAddr xs x.1, right := next, data := c.2 })
    rw [ih, firstAddr_snoc]
    tauto

theorem ends_eq_some {q : Nat} {m : Mem} {l r n : Nat} (h : ends q m = some (l, r, n)) :
    ∃ e t, m.deq q = some { left := l, right := r, e := e, t := t, numberOfEntries := n } := by
  unfold ends at h
  cases hq : m.deq q with
  | none => simp [hq] at h
  | some s =>
    obtain ⟨sl, sr, se, st, sn⟩ := s
    simp [hq] at h
    obtain ⟨h1, h2, h3⟩ := h
    exact ⟨se, st, by simp [h1, h2, h3]⟩

theorem firstAddr_ne_zero {cs : List (Nat × Nat)} (hne : cs ≠ [])
    (hfresh : ∀ c ∈ cs, c.1 ≠ 0) (d : Nat) : firstAddr cs d ≠ 0 := by
  cases cs with
  | nil => exact absurd rfl hne
  | cons x xs => exact hfresh x (List.mem_cons_self _ _)

theorem lastAddr_mem {cs : List (Nat × Nat)} (hne : cs ≠ []) (d : Nat) :
    ∃ c ∈ cs, lastAddr cs d = c.1 := by
  induction cs generalizing d with
  | nil => exact absurd rfl hne
  | cons x xs ih =>
    cases xs with
    | nil => exact ⟨x, List.mem_cons_self _ _, rfl⟩
    | cons y ys =>
      obtain ⟨c, hc, he⟩ := ih (by simp) x.1
      exact ⟨c, List.mem_cons_of_mem _ hc, he⟩

/-! ### The pushes keep the invariants -/

/-- On a queue satisfying the invariants, `oxdeq_push_left` of a present element returns
`q` and leaves a queue satisfying the invariants with the new node in front. -/
theorem push_left_WF {m : Mem} {q : Nat} {cs : List (Nat × Nat)} (h : WF m q cs)
    {x : Nat} (hx : x ≠ 0) :
    ∃ m1, oxdeq_push_left q x m = .ok (q, m1) ∧ WF m1 q ((m.brk + 1, x) :: cs) ∧
      m1.brk = m.brk + 1 ∧ (∀ a, a ≠ q → m1.deq a = m.deq a) ∧
      (∀ a, a ≤ m.brk → (∀ c ∈ cs, a ≠ c.1) → m1.ent a = m.ent a) := by
  obtain ⟨hq0, hqb, hends, hseg, hnd, hfresh⟩ := h
  obtain ⟨e, t, hdeq⟩ := ends_eq_some hends
  cases cs with
  | nil =>
    simp only [oxdeq_push_left, hq0, hx, hdeq, firstAddr_nil, or_self, if_true, if_false]
    refine ⟨_, rfl, ?_, rfl, ?_, ?_⟩
    · refine ⟨hq0, by simp; omega, by simp [ends], ?_, by simp, ?_⟩
      · simp [dseg]
      · simp
    · intro a ha; simp [Heap.set_other _ _ ha]
    · intro a ha _
      have : a ≠ m.brk + 1 := by omega
      simp [Heap.set_other _ _ this]
  | cons c rest =>
    have hc := hfresh c (List.mem_cons_self _ _)
    have hcne : c.1 ≠ m.brk + 1 := by omega
    have hread : m.ent c.1 = some { left := 0, right := firstAddr rest 0, data := c.2 } := hseg.1
    simp only [oxdeq_push_left, hq0, hx, hdeq, firstAddr_cons, hc.1, Heap.set_other _ _ hcne, hread,
      or_self, if_true, if_false]
    refine ⟨_, rfl, ?_, rfl, ?_, ?_⟩
    · refine ⟨hq0, by simp; omega, by simp [ends], ?_, ?_, ?_⟩
      · refine ⟨?_, ?_, ?_⟩
        · have : m.brk + 1 ≠ c.1 := fun h => hcne h.symm
          simp [Heap.set_other _ _ this]
        · simp
        · refine dseg_frame ?_ hseg.2
          intro d hd
          have hd1 := hfresh d (List.mem_cons_of_mem _ hd)
          have h1 : d.1 ≠ c.1 := by
            intro heq
            simp only [List.map_cons, List.nodup_cons] at hnd
            exact hnd.1 (heq ▸ List.mem_map_of_mem Prod.fst hd)
          have h2 : d.1 ≠ m.brk + 1 := by omega
          simp [Heap.set_other _ _ h1, Heap.set_other _ _ h2]
      · simp only [List.map_cons, List.nodup_cons]
        refine ⟨?_, by simpa using hnd⟩
        intro hmem
        rcases List.mem_cons.1 hmem with h1 | h1
        · omega
        · obtain ⟨d, hd, hde⟩ := List.mem_map.1 h1
          have := (hfresh d (List.mem_cons_of_mem _ hd)).2
          omega
      · intro d hd
        rcases List.mem_cons.1 hd with h1 | h1
        · subst h1; simp
        · have := hfresh d h1
          exact ⟨this.1, by simp; omega⟩
    · intro a ha; simp [Heap.set_other _ _ ha]
    · intro a ha hne
      have h1 : a ≠ m.brk + 1 := by omega
      have h2 : a ≠ c.1 := hne c (List.mem_cons_self _ _)
      simp [Heap.set_other _ _ h1, Heap.set_other _ _ h2]

/-- On a queue satisfying the invariants, `oxdeq_push_right` of a present element returns
`q` and leaves a queue satisfying the invariants with the new node at the back. -/
theorem push_right_WF {m : Mem} {q : Nat} {cs : List (Nat × Nat)} (h : WF m q cs)
    {x : Nat} (hx : x ≠ 0) :
    ∃ m1, oxdeq_push_right q x m = .ok (q, m1) ∧ WF m1 q (cs ++ [(m.brk + 1, x)]) ∧
      m1.brk = m.brk + 1 ∧ (∀ a, a ≠ q → m1.deq a = m.deq a) ∧
      (∀ a, a ≤ m.brk → (∀ c ∈ cs, a ≠ c.1) → m1.ent a = m.ent a) := by
  obtain ⟨hq0, hqb, hends, hseg, hnd, hfresh⟩ := h
  obtain ⟨e, t, hdeq⟩ := ends_eq_some hends
  rcases List.eq_nil_or_concat cs with hnil | ⟨init, c, hcs⟩
  · subst hnil
    simp only [oxdeq_push_right, hq0, hx, hdeq, lastAddr_nil, or_self, if_true, if_false]
    refine ⟨_, rfl, ?_, rfl, ?_, ?_⟩
    · refine ⟨hq0, by simp; omega, by simp [ends], ?_, by simp, ?_⟩
      · simp [dseg]
      · simp
    · intro a ha; simp [Heap.set_other _ _ ha]
    · intro a ha _
      have : a ≠ m.brk + 1 := by omega
      simp [Heap.set_other _ _ this]
  · rw [List.concat_eq_append] at hcs
    subst hcs
    have hc := hfresh c (by simp)
    have hcne : c.1 ≠ m.brk + 1 := by omega
    obtain ⟨hinit, hread⟩ := dseg_snoc.1 hseg
    simp only [oxdeq_push_right, hq0, hx, hdeq, lastAddr_snoc, hc.1, Heap.set_other _ _ hcne, hread,
      or_self, if_true, if_false]
    refine ⟨_, rfl, ?_, rfl, ?_, ?_⟩
    · refine ⟨hq0, by simp; omega, ?_, ?_, ?_, ?_⟩
      · simp only [ends, Heap.set_same, Option.map_some', firstAddr_snoc, lastAddr_snoc,
          List.length_append, List.length_singleton]
      · refine dseg_snoc.2 ⟨dseg_snoc.2 ⟨?_, ?_⟩, ?_⟩
        · refine dseg_frame ?_ hinit
          intro d hd
          have hd1 := hfresh d (by simp [hd])
          have h1 : d.1 ≠ c.1 := by
            intro heq
            rw [List.map_append, List.nodup_append] at hnd
            exact hnd.2.2 (List.mem_map_of_mem Prod.fst hd) (by simp [heq])
          have h2 : d.1 ≠ m.brk + 1 := by omega
          simp [Heap.set_other _ _ h1, Heap.set_other _ _ h2]
        · simp
        · have : m.brk + 1 ≠ c.1 := fun h => hcne h.symm
          simp [Heap.set_other _ _ this]
      · rw [List.map_append, List.nodup_append]
        refine ⟨hnd, by simp, ?_⟩
        intro a ha hb
        obtain ⟨d, hd, hde⟩ := List.mem_map.1 ha
        have := (hfresh d hd).2
        simp at hb
        omega
      · intro d hd
        rcases List.mem_append.1 hd with h1 | h1
        · have := hfresh d h1
          exact ⟨this.1, by simp; omega⟩
        · simp at h1; subst h1; simp
    · intro a ha; simp [Heap.set_other _ _ ha]
    · intro a ha hne
      have h1 : a ≠ m.brk + 1 := by omega
      have h2 : a ≠ c.1 := hne c (by simp)
      simp [Heap.set_other _ _ h1, Heap.set_other _ _ h2]

/-- A queue fresh from `oxdeq_alloc` satisfies the invariants with no node. -/
theorem alloc_WF (m : Mem) : WF (oxdeq_alloc m).2 (oxdeq_alloc m).1 [] := by
  refine ⟨by simp [oxdeq_alloc], by simp [oxdeq_alloc], by simp [oxdeq_alloc, ends], trivial,
    by simp, by simp⟩

theorem size_dec_succ (n : Nat) : size_dec (n + 1) = n := by
  simp [size_dec]

theorem lastAddr_of_ne_nil {cs : List (Nat × Nat)} (hne : cs ≠ []) (d d1 : Nat) :
    lastAddr cs d = lastAddr cs d1 := by
  cases cs with
  | nil => exact absurd rfl hne
  | cons x xs => rfl

theorem firstAddr_of_ne_nil {cs : List (Nat × Nat)} (hne : cs ≠ []) (d d1 : Nat) :
    firstAddr cs d = firstAddr cs d1 := by
  cases cs with
  | nil => exact absurd rfl hne
  | cons x xs => rfl

theorem lastAddr_ne_zero {cs : List (Nat × Nat)} (hne : cs ≠ [])
    (hfresh : ∀ c ∈ cs, c.1 ≠ 0) (d : Nat) : lastAddr cs d ≠ 0 := by
  obtain ⟨c, hc, he⟩ := lastAddr_mem hne d
  rw [he]
  exact hfresh c hc

/-! ### The pops on a queue that satisfies the invariants -/

/-- Function `oxdeq_pop_left` on a queue satisfying the invariants whose first element is present:
the element is returned, its node is freed, and the header moves to the rest. -/
theorem pop_left_WF {m : Mem} {q : Nat} {c : Nat × Nat} {cs : List (Nat × Nat)}
    (h : WF m q (c :: cs)) (hc : c.2 ≠ 0) :
    ∃ m1, oxdeq_pop_left q m = .ok (c.2, m1) ∧
      ends q m1 = some (firstAddr cs 0, lastAddr cs 0, cs.length) ∧
      m1.ent = m.ent.set c.1 none ∧ m1.brk = m.brk ∧ (∀ a, a ≠ q → m1.deq a = m.deq a) := by
  obtain ⟨hq0, hqb, hends, hseg, hnd, hfresh⟩ := h
  obtain ⟨e, t, hdeq⟩ := ends_eq_some hends
  have hc0 := (hfresh c (List.mem_cons_self _ _)).1
  have hread : m.ent c.1 = some { left := 0, right := firstAddr cs 0, data := c.2 } := hseg.1
  simp only [oxdeq_pop_left, hq0, hdeq, firstAddr_cons, hc0, hread, hc, if_false]
  refine ⟨_, rfl, ?_, rfl, rfl, ?_⟩
  · cases cs with
    | nil => simp [ends, size_dec]
    | cons d ds =>
      have hd0 := (hfresh d (by simp)).1
      simp [ends, hd0, size_dec]
  · intro a ha; simp [Heap.set_other _ _ ha]

/-- Function `oxdeq_pop_right` on a queue satisfying the invariants whose last element is present:
the element is returned, its node is freed, and the header moves to the rest. -/
theorem pop_right_WF {m : Mem} {q : Nat} {c : Nat × Nat} {cs : List (Nat × Nat)}
    (h : WF m q (cs ++ [c])) (hc : c.2 ≠ 0) :
    ∃ m1, oxdeq_pop_right q m = .ok (c.2, m1) ∧
      ends q m1 = some (firstAddr cs 0, lastAddr cs 0, cs.length) ∧
      m1.ent = m.ent.set c.1 none ∧ m1.brk = m.brk ∧ (∀ a, a ≠ q → m1.deq a = m.deq a) := by
  obtain ⟨hq0, hqb, hends, hseg, hnd, hfresh⟩ := h
  obtain ⟨e, t, hdeq⟩ := ends_eq_some hends
  have hc0 := (hfresh c (by simp)).1
  obtain ⟨-, hread⟩ := dseg_snoc.1 hseg
  simp only [oxdeq_pop_right, hq0, hdeq, lastAddr_snoc, hc0, hread, hc, if_false]
  refine ⟨_, rfl, ?_, rfl, rfl, ?_⟩
  · cases cs with
    | nil => simp [ends, size_dec]
    | cons d ds =>
      have hne : lastAddr (d :: ds) 0 ≠ 0 :=
        lastAddr_ne_zero (by simp)
          (fun x hx => (hfresh x (List.mem_append.2 (Or.inl hx))).1) 0
      simp only [lastAddr_cons] at hne
      simp [ends, hne, size_dec]
  · intro a ha; simp [Heap.set_other _ _ ha]

theorem push_left_absent (q : Nat) (m : Mem) : oxdeq_push_left q 0 m = .ok (q, m) := by
  simp [oxdeq_push_left]

theorem push_right_absent (q : Nat) (m : Mem) : oxdeq_push_right q 0 m = .ok (q, m) := by
  simp [oxdeq_push_right]

theorem number_of_entries_WF {m : Mem} {q : Nat} {cs : List (Nat × Nat)} (h : WF m q cs) :
    oxdeq_number_of_entries q m = .ok cs.length := by
  obtain ⟨hq0, -, hends, -⟩ := h
  obtain ⟨e, t, hdeq⟩ := ends_eq_some hends
  simp [oxdeq_number_of_entries, hq0, hdeq]

/-- A sequence of pushes on a queue satisfying the invariants runs without a fault and
leaves a queue satisfying the invariants; its elements are those of the list model run on
the pushes of present elements. -/
theorem run_pushes {q : Nat} (ops : List Op) :
    ∀ (m : Mem) (cs : List (Nat × Nat)), WF m q cs → (∀ op ∈ ops, op.isPush = true) →
      ∃ m1 cs1, run q ops m = .ok (m1, []) ∧ WF m1 q cs1 ∧
        cs1.map Prod.snd = (listRun (ops.filter Op.isPresentPush) (cs.map Prod.snd)).1 ∧
        cs1.length = cs.length + (ops.filter Op.isPresentPush).length := by
  induction ops with
  | nil =>
    intro m cs h _
    exact ⟨m, cs, rfl, h, rfl, rfl⟩
  | cons op ops ih =>
    intro m cs h hp
    have hrest : ∀ o ∈ ops, o.isPush = true := fun o ho => hp o (List.mem_cons_of_mem _ ho)
    have hop := hp op (List.mem_cons_self _ _)
    cases op with
    | push_left x =>
      by_cases hx : x = 0
      · subst hx
        obtain ⟨m1, cs1, hrun, hwf, hseq, hlen⟩ := ih m cs h hrest
        refine ⟨m1, cs1, ?_, hwf, ?_, ?_⟩
        · simp [run, step, push_left_absent, hrun]
        · simpa [List.filter, Op.isPresentPush] using hseq
        · simpa [List.filter, Op.isPresentPush] using hlen
      · obtain ⟨m0, hpush, hwf0, -⟩ := push_left_WF h hx
        obtain ⟨m1, cs1, hrun, hwf, hseq, hlen⟩ := ih m0 _ hwf0 hrest
        have hpres : Op.isPresentPush (Op.push_left x) = true := by
          simp [Op.isPresentPush, hx]
        rw [List.filter_cons_of_pos hpres]
        refine ⟨m1, cs1, ?_, hwf, ?_, ?_⟩
        · simp [run, step, hpush, hrun]
        · simpa [listRun, listStep] using hseq
        · simp at hlen ⊢
          omega
    | push_right x =>
      by_cases hx : x = 0
      · subst hx
        obtain ⟨m1, cs1, hrun, hwf, hseq, hlen⟩ := ih m cs h hrest
        refine ⟨m1, cs1, ?_, hwf, ?_, ?_⟩
        · simp [run, step, push_right_absent, hrun]
        · simpa [List.filter, Op.isPresentPush] using hseq
        · simpa [List.filter, Op.isPresentPush] using hlen
      · obtain ⟨m0, hpush, hwf0, -⟩ := push_right_WF h hx
        obtain ⟨m1, cs1, hrun, hwf, hseq, hlen⟩ := ih m0 _ hwf0 hrest
        have hpres : Op.isPresentPush (Op.push_right x) = true := by
          simp [Op.isPresentPush, hx]
        rw [List.filter_cons_of_pos hpres]
        refine ⟨m1, cs1, ?_, hwf, ?_, ?_⟩
        · simp [run, step, hpush, hrun]
        · simpa [listRun, listStep] using hseq
        · simp at hlen ⊢
          omega
    | pop_left => simp [Op.isPush] at hop
    | pop_right => simp [Op.isPush] at hop
    | peek_left => simp [Op.isPush] at hop
    | peek_right => simp [Op.isPush] at hop
    | count => simp [Op.isPush] at hop

/-! ### Counting pushes, absent pushes, push then pop, peek then pop -/

/-- C6: for every sequence of `push_left`/`push_right` calls on a queue from `oxdeq_alloc`,
the run returns and `oxdeq_number_of_entries` then equals the number of calls whose element
was present; the calls with an absent element do not count. -/
theorem C6_count_tracks_pushes (m0 : Mem) (ops : List Op)
    (hpush : ∀ op ∈ ops, op.isPush = true) :
    ∃ m1, runFresh ops m0 = .ok (m1, []) ∧
      oxdeq_number_of_entries (oxdeq_alloc m0).1 m1 =
        .ok (ops.filter Op.isPresentPush).length := by
  obtain ⟨m1, cs1, hrun, hwf, -, hlen⟩ := run_pushes ops _ [] (alloc_WF m0) hpush
  refine ⟨m1, hrun, ?_⟩
  rw [number_of_entries_WF hwf, hlen]
  simp

/-- C6 at the calls `push_left 4; push_right absent; push_right 5` on an empty memory. -/
theorem C6_witness :
    (∀ op ∈ [Op.push_left 4, Op.push_right 0, Op.push_right 5], op.isPush = true) ∧
    ∃ m1, runFresh [Op.push_left 4, Op.push_right 0, Op.push_right 5] Mem.empty = .ok (m1, []) ∧
      oxdeq_number_of_entries (oxdeq_alloc Mem.empty).1 m1 =
        .ok ([Op.push_left 4, Op.push_right 0, Op.push_right 5].filter Op.isPresentPush).length :=
  ⟨by decide, C6_count_tracks_pushes Mem.empty _ (by decide)⟩

/-- C10: pushing an absent element at either end returns `q` itself and leaves the whole
memory, hence the count, both end references, every node and the element sequence,
as it was; this holds for every pointer `q` and every memory. -/
theorem C10_push_absent_noop (q : Nat) (m : Mem) :
    oxdeq_push_left q 0 m = .ok (q, m) ∧ oxdeq_push_right q 0 m = .ok (q, m) :=
  ⟨push_left_absent q m, push_right_absent q m⟩

theorem peek_left_WF {m : Mem} {q : Nat} {c : Nat × Nat} {cs : List (Nat × Nat)}
    (h : WF m q (c :: cs)) : oxdeq_peek_left q m = .ok c.2 := by
  obtain ⟨hq0, -, hends, hseg, -, hfresh⟩ := h
  obtain ⟨e, t, hdeq⟩ := ends_eq_some hends
  have hc0 := (hfresh c (List.mem_cons_self _ _)).1
  have hread : m.ent c.1 = some { left := 0, right := firstAddr cs 0, data := c.2 } := hseg.1
  simp [oxdeq_peek_left, hq0, hdeq, hc0, hread]

theorem peek_right_WF {m : Mem} {q : Nat} {c : Nat × Nat} {cs : List (Nat × Nat)}
    (h : WF m q (cs ++ [c])) : oxdeq_peek_right q m = .ok c.2 := by
  obtain ⟨hq0, -, hends, hseg, -, hfresh⟩ := h
  obtain ⟨e, t, hdeq⟩ := ends_eq_some hends
  have hc0 := (hfresh c (by simp)).1
  obtain ⟨-, hread⟩ := dseg_snoc.1 hseg
  simp [oxdeq_peek_right, hq0, hdeq, hc0, hread]

/-- Function `oxdeq_pop_left` on a non-empty queue satisfying the invariants returns the data of the
first node, whether present or not. -/
theorem pop_left_value {m : Mem} {q : Nat} {c : Nat × Nat} {cs : List (Nat × Nat)}
    (h : WF m q (c :: cs)) : ∃ m1, oxdeq_pop_left q m = .ok (c.2, m1) := by
  by_cases hc : c.2 = 0
  · obtain ⟨hq0, -, hends, hseg, -, hfresh⟩ := h
    obtain ⟨e, t, hdeq⟩ := ends_eq_some hends
    have hc0 := (hfresh c (List.mem_cons_self _ _)).1
    have hread : m.ent c.1 = some { left := 0, right := firstAddr cs 0, data := c.2 } := hseg.1
    exact ⟨m, by simp [oxdeq_pop_left, hq0, hdeq, hc0, hread, hc]⟩
  · obtain ⟨m1, h1, -⟩ := pop_left_WF h hc
    exact ⟨m1, h1⟩

/-- Function `oxdeq_pop_right` on a non-empty queue satisfying the invariants returns the data of
the last node, whether present or not. -/
theorem pop_right_value {m : Mem} {q : Nat} {c : Nat × Nat} {cs : List (Nat × Nat)}
    (h : WF m q (cs ++ [c])) : ∃ m1, oxdeq_pop_right q m = .ok (c.2, m1) := by
  by_cases hc : c.2 = 0
  · obtain ⟨hq0, -, hends, hseg, -, hfresh⟩ := h
    obtain ⟨e, t, hdeq⟩ := ends_eq_some hends
    have hc0 := (hfresh c (by simp)).1
    obtain ⟨-, hread⟩ := dseg_snoc.1 hseg
    exact ⟨m, by simp [oxdeq_pop_right, hq0, hdeq, hc0, hread, hc]⟩
  · obtain ⟨m1, h1, -⟩ := pop_right_WF h hc
    exact ⟨m1, h1⟩

/-- C7: on a queue satisfying the invariants (empty or not), pushing a present element `x`
on the left and popping on the left at once returns `x` and leaves the left end reference,
the right end reference and the count as they were before the push; the same holds for
`oxdeq_push_right` followed by `oxdeq_pop_right`. -/
theorem C7_push_pop_inverse (m : Mem) (q : Nat) (cs : List (Nat × Nat)) (h : WF m q cs)
    (x : Nat) (hx : x ≠ 0) :
    (∃ m1 m2, oxdeq_push_left q x m = .ok (q, m1) ∧ oxdeq_pop_left q m1 = .ok (x, m2) ∧
      ends q m2 = ends q m) ∧
    (∃ m1 m2, oxdeq_push_right q x m = .ok (q, m1) ∧ oxdeq_pop_right q m1 = .ok (x, m2) ∧
      ends q m2 = ends q m) := by
  constructor
  · obtain ⟨m1, hpush, hwf, -⟩ := push_left_WF h hx
    obtain ⟨m2, hpop, hends, -⟩ := pop_left_WF hwf hx
    exact ⟨m1, m2, hpush, hpop, by rw [hends, h.2.2.1]⟩
  · obtain ⟨m1, hpush, hwf, -⟩ := push_right_WF h hx
    obtain ⟨m2, hpop, hends, -⟩ := pop_right_WF hwf hx
    exact ⟨m1, m2, hpush, hpop, by rw [hends, h.2.2.1]⟩

/-- C7 at the three-element queue of `exampleMem` and the element 5. -/
theorem C7_witness :
    WF exampleMem 1 exampleCells ∧ (5 : Nat) ≠ 0 ∧
    (∃ m1 m2, oxdeq_push_left 1 5 exampleMem = .ok (1, m1) ∧
      oxdeq_pop_left 1 m1 = .ok (5, m2) ∧ ends 1 m2 = ends 1 exampleMem) ∧
    (∃ m1 m2, oxdeq_push_right 1 5 exampleMem = .ok (1, m1) ∧
      oxdeq_pop_right 1 m1 = .ok (5, m2) ∧ ends 1 m2 = ends 1 exampleMem) :=
  ⟨by decide, by decide,
    C7_push_pop_inverse exampleMem 1 exampleCells (by decide) 5 (by decide)⟩

/-- C8: on a non-empty queue satisfying the invariants, `oxdeq_peek_left` returns the data
of the first node and leaves the memory as it is, and `oxdeq_pop_left` called next returns
the same reference; likewise `oxdeq_peek_right` and `oxdeq_pop_right` with the last node. -/
theorem C8_peek_agrees_with_pop (m : Mem) (q : Nat) (cs : List (Nat × Nat)) (h : WF m q cs)
    (hne : cs ≠ []) :
    (∃ v m1, cs.head?.map Prod.snd = some v ∧ step q m Op.peek_left = .ok (m, some v) ∧
      step q m Op.pop_left = .ok (m1, some v)) ∧
    (∃ v m1, cs.getLast?.map Prod.snd = some v ∧ step q m Op.peek_right = .ok (m, some v) ∧
      step q m Op.pop_right = .ok (m1, some v)) := by
  constructor
  · cases cs with
    | nil => exact absurd rfl hne
    | cons c rest =>
      obtain ⟨m1, hpop⟩ := pop_left_value h
      exact ⟨c.2, m1, rfl, by simp [step, peek_left_WF h], by simp [step, hpop]⟩
  · rcases List.eq_nil_or_concat cs with hnil | ⟨init, c, hcs⟩
    · exact absurd hnil hne
    · rw [List.concat_eq_append] at hcs
      subst hcs
      obtain ⟨m1, hpop⟩ := pop_right_value h
      exact ⟨c.2, m1, by simp, by simp [step, peek_right_WF h], by simp [step, hpop]⟩

/-- C8 at the three-element queue of `exampleMem`. -/
theorem C8_witness :
    WF exampleMem 1 exampleCells ∧
    (∃ v m1, exampleCells.head?.map Prod.snd = some v ∧
      step 1 exampleMem Op.peek_left = .ok (exampleMem, some v) ∧
      step 1 exampleMem Op.pop_left = .ok (m1, some v)) ∧
    (∃ v m1, exampleCells.getLast?.map Prod.snd = some v ∧
      step 1 exampleMem Op.peek_right = .ok (exampleMem, some v) ∧
      step 1 exampleMem Op.pop_right = .ok (m1, some v)) :=
  ⟨by decide,
    C8_peek_agrees_with_pop exampleMem 1 exampleCells (by decide) (by decide)⟩

/-! ### Call sequences that mix the two ends -/

/-- C1, evaluated at `push_right(1); push_right(2); pop_left; pop_right; peek_left` on a new
queue: every pushed element is present and the list model returns 1, 2 and absent, but the
run of the code ends in a fault, because the last `peek_left` reads a freed node. -/
theorem C1_refinement_fault :
    pushesPresent [Op.push_right 1, Op.push_right 2, Op.pop_left, Op.pop_right, Op.peek_left] ∧
    (listRun [Op.push_right 1, Op.push_right 2, Op.pop_left, Op.pop_right, Op.peek_left] []).2
      = [1, 2, 0] ∧
    (runFresh [Op.push_right 1, Op.push_right 2, Op.pop_left, Op.pop_right] Mem.empty).map
      Prod.snd = .ok [1, 2] ∧
    (runFresh [Op.push_right 1, Op.push_right 2, Op.pop_left, Op.pop_right, Op.peek_left]
      Mem.empty).map Prod.snd = .fault := by
  decide

/-- C2, evaluated at `push_right(1); push_right(2); pop_left; pop_right` on a new queue at
address 1: the pops return 1 and 2 and the count is 0, but the left end reference is still
the freed node 3 and the right end reference the freed node 2. -/
theorem C2_empty_state_broken :
    (runFresh [Op.push_right 1, Op.push_right 2, Op.pop_left, Op.pop_right] Mem.empty).map
      (fun r => (ends (oxdeq_alloc Mem.empty).1 r.1, r.2)) = .ok (some (3, 2, 0), [1, 2]) := by
  decide

/-- C3, evaluated at `push_right(1); push_right(2); pop_right` on a new queue at address 1:
the queue then has count 1 and holds the single element 1, but a shallow `oxdeq_copy`
faults for every amount of fuel that lets it take two steps: the node of 1 still has the
freed node of 2 as right neighbour and the copy loop reads it. -/
theorem C3_copy_after_pop_fault (fuel : Nat) :
    (runFresh [Op.push_right 1, Op.push_right 2, Op.pop_right] Mem.empty).map
      (fun r => (ends 1 r.1, oxdeq_peek_left 1 r.1, oxdeq_peek_right 1 r.1, r.2))
      = .ok (some (2, 2, 1), .ok 1, .ok 1, [2]) ∧
    ((runFresh [Op.push_right 1, Op.push_right 2, Op.pop_right] Mem.empty).bind
      fun r => oxdeq_copy (fuel + 2) 1 none r.1).map Prod.fst = .fault := by
  constructor
  · decide
  · rfl

/-! ### The reversal scenario -/

/-- C5, counterexample: in the scenario the count after the pop is not 1. -/
theorem C5_count_is_not_one : (scenario 4).map (fun r => r.2.2.2.2) ≠ .ok 1 := by
  decide

/-- C5, amended: after `push_right(1); push_right(2); push_right(3)` on a new queue the
sequence is [1,2,3]; `oxdeq_reverse` makes it [3,2,1]; `oxdeq_pop_left` then returns 3 and
leaves the sequence [2,1] and the count 2.  Any fuel from 4 on is enough. -/
theorem C5_scenario (fuel : Nat) :
    scenario (fuel + 4) = .ok ([1, 2, 3], [3, 2, 1], 3, [2, 1], 2) := by
  rfl

/-! ### Reversal -/

theorem revData_map_fst (cs : List (Nat × Nat)) : (revData cs).map Prod.fst = cs.map Prod.fst := by
  unfold revData
  exact List.map_fst_zip _ _ (by simp)

theorem revData_map_snd (cs : List (Nat × Nat)) :
    (revData cs).map Prod.snd = (cs.map Prod.snd).reverse := by
  unfold revData
  exact List.map_snd_zip _ _ (by simp)

theorem revData_length (cs : List (Nat × Nat)) : (revData cs).length = cs.length := by
  simp [revData]

theorem revData_cons_snoc (x y : Nat × Nat) (mid : List (Nat × Nat)) :
    revData (x :: (mid ++ [y])) = (x.1, y.2) :: (revData mid ++ [(y.1, x.2)]) := by
  unfold revData
  simp only [List.map_cons, List.map_append, List.map_nil, List.reverse_cons, List.reverse_append,
    List.reverse_nil, List.nil_append, List.singleton_append, List.cons_append, List.zip_cons_cons]
  rw [List.zip_append (by simp)]
  rfl

theorem firstAddr_congr {cs cs1 : List (Nat × Nat)} (h : cs.map Prod.fst = cs1.map Prod.fst)
    (d : Nat) : firstAddr cs d = firstAddr cs1 d := by
  cases cs <;> cases cs1 <;> simp_all

theorem lastAddr_congr {cs cs1 : List (Nat × Nat)} (h : cs.map Prod.fst = cs1.map Prod.fst)
    (d : Nat) : lastAddr cs d = lastAddr cs1 d := by
  induction cs generalizing cs1 d with
  | nil => cases cs1 <;> simp_all
  | cons x xs ih =>
    cases cs1 with
    | nil => simp at h
    | cons y ys =>
      simp only [List.map_cons, List.cons.injEq] at h
      simp only [lastAddr_cons, h.1]
      exact ih h.2 _

/-- The swapping loop on a non-empty segment of distinct nodes, started at its two ends with
enough fuel, returns; afterwards the same nodes carry the data in reverse order and the
rest of the heap is as before. -/
theorem reverse_loop_spec (n : Nat) :
    ∀ (cs : List (Nat × Nat)), cs.length ≤ n → cs ≠ [] →
      ∀ (ent : Heap oxqent) (prev next fuel d1 d2 : Nat), cs.length ≤ fuel →
        dseg ent prev cs next → (cs.map Prod.fst).Nodup →
        ∃ ent1, oxdeq_reverse_loop fuel (firstAddr cs d1) (lastAddr cs d2) ent = .ok ent1 ∧
          dseg ent1 prev (revData cs) next ∧
          ∀ a, a ∉ cs.map Prod.fst → ent1 a = ent a := by
  induction n with
  | zero =>
    intro cs hlen hne
    exact absurd (List.length_eq_zero.1 (Nat.le_zero.1 hlen)) hne
  | succ n ih =>
    intro cs hlen hne ent prev next fuel d1 d2 hfuel hseg hnd
    cases cs with
    | nil => exact absurd rfl hne
    | cons x rest =>
      obtain ⟨fuel, rfl⟩ : ∃ k, fuel = k + 1 := ⟨fuel - 1, by simp at hfuel; omega⟩
      rcases List.eq_nil_or_concat rest with hnil | ⟨mid, y, hrest⟩
      · subst hnil
        refine ⟨ent, by simp [oxdeq_reverse_loop], ?_, fun _ _ => rfl⟩
        simpa [revData] using hseg
      · rw [List.concat_eq_append] at hrest
        subst hrest
        have hxy : x.1 ≠ y.1 := by
          intro heq
          simp only [List.map_cons, List.nodup_cons, List.map_append, List.mem_append] at hnd
          exact hnd.1 (Or.inr (by simp [heq]))
        have hmidnd : (mid.map Prod.fst).Nodup := by
          simp only [List.map_cons, List.nodup_cons, List.map_append] at hnd
          exact (List.nodup_append.1 hnd.2).1
        have hmidx : ∀ c ∈ mid, c.1 ≠ x.1 := by
          intro c hc heq
          simp only [List.map_cons, List.nodup_cons, List.map_append, List.mem_append] at hnd
          exact hnd.1 (Or.inl (heq ▸ List.mem_map_of_mem Prod.fst hc))
        have hmidy : ∀ c ∈ mid, c.1 ≠ y.1 := by
          intro c hc heq
          simp only [List.map_cons, List.nodup_cons, List.map_append] at hnd
          exact (List.nodup_append.1 hnd.2).2.2 (List.mem_map_of_mem Prod.fst hc) (by simp [heq])
        have hx : ent x.1 = some { left := prev, right := firstAddr mid y.1, data := x.2 } := by
          have := hseg.1
          rwa [firstAddr_snoc] at this
        obtain ⟨hmid, hy⟩ := dseg_snoc.1 hseg.2
        have hyx : y.1 ≠ x.1 := fun h => hxy h.symm
        simp only [firstAddr_cons, lastAddr_cons, lastAddr_snoc, oxdeq_reverse_loop, hxy, hx, hy,
          if_false]
        rw [revData_cons_snoc]
        cases mid with
        | nil =>
          simp only [firstAddr_nil, if_true]
          refine ⟨_, rfl, ?_, ?_⟩
          · simp [revData, dseg, Heap.set_other _ _ hxy]
          · intro a ha
            simp only [List.map_cons, List.map_append, List.map_nil, List.nil_append,
              List.mem_cons, List.mem_singleton, List.not_mem_nil, or_false, not_or] at ha
            simp [Heap.set_other _ _ ha.1, Heap.set_other _ _ ha.2]
        | cons z zs =>
          have hzy : z.1 ≠ y.1 := hmidy z (List.mem_cons_self _ _)
          simp only [firstAddr_cons, hzy, if_false]
          have hmid2 : dseg ((ent.set x.1 (some { left := prev, right := z.1, data := y.2 })).set y.1
              (some { left := lastAddr (z :: zs) x.1, right := next, data := x.2 }))
              x.1 (z :: zs) y.1 := by
            refine dseg_frame ?_ hmid
            intro c hc
            simp [Heap.set_other _ _ (hmidx c hc), Heap.set_other _ _ (hmidy c hc)]
          have hlen2 : (z :: zs).length ≤ n := by
            simp at hlen ⊢
            omega
          have hfuel2 : (z :: zs).length ≤ fuel := by
            simp at hfuel ⊢
            omega
          obtain ⟨ent1, hrun, hseg1, hframe⟩ :=
            ih (z :: zs) hlen2 (by simp) _ x.1 y.1 fuel 0 x.1 hfuel2 hmid2 hmidnd
          simp only [firstAddr_cons] at hrun
          refine ⟨ent1, hrun, ⟨?_, dseg_snoc.2 ⟨hseg1, ?_⟩⟩, ?_⟩
          · have hxn : x.1 ∉ (z :: zs).map Prod.fst := by
              intro hmem
              obtain ⟨c, hc, hce⟩ := List.mem_map.1 hmem
              exact hmidx c hc hce
            rw [hframe _ hxn, Heap.set_other _ _ hxy, Heap.set_same, firstAddr_snoc,
              firstAddr_congr (revData_map_fst (z :: zs))]
            rfl
          · have hyn : y.1 ∉ (z :: zs).map Prod.fst := by
              intro hmem
              obtain ⟨c, hc, hce⟩ := List.mem_map.1 hmem
              exact hmidy c hc hce
            rw [hframe _ hyn, Heap.set_same, lastAddr_congr (revData_map_fst (z :: zs))]
          · intro a ha
            simp only [List.map_cons, List.map_append, List.map_nil, List.mem_cons,
              List.mem_append, List.mem_singleton, List.not_mem_nil, or_false, not_or] at ha
            have han : a ∉ (z :: zs).map Prod.fst := by
              simp only [List.map_cons, List.mem_cons, not_or]
              exact ⟨ha.2.1.1, ha.2.1.2⟩
            rw [hframe _ han, Heap.set_other _ _ ha.2.2, Heap.set_other _ _ ha.1]

theorem revData_middle (cs : List (Nat × Nat)) (hodd : cs.length % 2 = 1) :
    (revData cs)[cs.length / 2]? = cs[cs.length / 2]? := by
  have hi : cs.length / 2 < cs.length := by omega
  rw [List.getElem?_eq_getElem hi]
  refine List.getElem?_zip_eq_some.2 ⟨?_, ?_⟩
  · simp [List.getElem?_eq_getElem hi]
  · rw [List.getElem?_reverse (by simpa using hi)]
    have hidx : (cs.map Prod.snd).length - 1 - cs.length / 2 = cs.length / 2 := by
      simp only [List.length_map]
      omega
    rw [hidx]
    simp [List.getElem?_eq_getElem hi]

/-- C4: on a queue satisfying the invariants, of any count, `oxdeq_reverse` returns `q` as
soon as the fuel exceeds the count; afterwards the queue satisfies the invariants with the
same nodes in the same order, the left-to-right sequence of element references is the
reverse of the one before, and for an odd count the middle node carries what it carried. -/
theorem C4_reverse_reverses (m : Mem) (q : Nat) (cs : List (Nat × Nat)) (h : WF m q cs)
    (fuel : Nat) (hfuel : cs.length < fuel) :
    ∃ m1, oxdeq_reverse fuel q m = .ok (q, m1) ∧ WF m1 q (revData cs) ∧
      (revData cs).map Prod.snd = (cs.map Prod.snd).reverse ∧
      (revData cs).map Prod.fst = cs.map Prod.fst ∧
      (cs.length % 2 = 1 → (revData cs)[cs.length / 2]? = cs[cs.length / 2]?) := by
  obtain ⟨hq0, hqb, hends, hseg, hnd, hfresh⟩ := h
  obtain ⟨e, t, hdeq⟩ := ends_eq_some hends
  have hloop : ∃ ent1, oxdeq_reverse_loop fuel (firstAddr cs 0) (lastAddr cs 0) m.ent = .ok ent1 ∧
      dseg ent1 0 (revData cs) 0 := by
    by_cases hne : cs = []
    · subst hne
      obtain ⟨k, rfl⟩ : ∃ k, fuel = k + 1 := ⟨fuel - 1, by simp at hfuel; omega⟩
      exact ⟨m.ent, by simp [oxdeq_reverse_loop], by simp [revData, dseg]⟩
    · obtain ⟨ent1, h1, h2, -⟩ :=
        reverse_loop_spec cs.length cs (Nat.le_refl _) hne m.ent 0 0 fuel 0 0 (Nat.le_of_lt hfuel)
          hseg hnd
      exact ⟨ent1, h1, h2⟩
  obtain ⟨ent1, hrun, hseg1⟩ := hloop
  simp only [oxdeq_reverse, hq0, hdeq, hrun, if_false]
  refine ⟨_, rfl, ⟨hq0, hqb, ?_, hseg1, ?_, ?_⟩, revData_map_snd cs, revData_map_fst cs,
    revData_middle cs⟩
  · simp [ends, firstAddr_congr (revData_map_fst cs), lastAddr_congr (revData_map_fst cs),
      revData_length]
  · rw [revData_map_fst]
    exact hnd
  · intro c hc
    have hmem : c.1 ∈ cs.map Prod.fst := by
      rw [← revData_map_fst]
      exact List.mem_map_of_mem Prod.fst hc
    obtain ⟨d, hd, hde⟩ := List.mem_map.1 hmem
    rw [← hde]
    exact hfresh d hd

/-- C4 at the three-element queue of `exampleMem` with fuel 4. -/
theorem C4_witness :
    WF exampleMem 1 exampleCells ∧
    ∃ m1, oxdeq_reverse 4 1 exampleMem = .ok (1, m1) ∧ WF m1 1 (revData exampleCells) ∧
      (revData exampleCells).map Prod.snd = (exampleCells.map Prod.snd).reverse ∧
      (revData exampleCells).map Prod.fst = exampleCells.map Prod.fst ∧
      (exampleCells.length % 2 = 1 →
        (revData exampleCells)[exampleCells.length / 2]? =
          exampleCells[exampleCells.length / 2]?) :=
  ⟨by decide,
    C4_reverse_reverses exampleMem 1 exampleCells (by decide) 4 (by decide)⟩

/-! ### Copy -/

/-- The copy loop started at the first node of a segment `rest` of live nodes that are
disjoint from the nodes of the target queue `c` returns with enough fuel, and has pushed
the present copies of the data of `rest` on the right of `c`, in order. -/
theorem copy_loop_spec (fcopy : Option (Nat → Nat)) (c : Nat) (rest : List (Nat × Nat)) :
    ∀ (m : Mem) (ccs : List (Nat × Nat)) (prev fuel : Nat), WF m c ccs →
      dseg m.ent prev rest 0 →
      (∀ r ∈ rest, r.1 ≠ 0 ∧ r.1 ≤ m.brk ∧ ∀ d ∈ ccs, r.1 ≠ d.1) →
      rest.length < fuel →
      ∃ m1 ccs1, oxdeq_copy_loop fcopy c fuel (firstAddr rest 0) m = .ok m1 ∧ WF m1 c ccs1 ∧
        ccs1.map Prod.snd =
          ccs.map Prod.snd ++ ((rest.map Prod.snd).map (copyOfData fcopy)).filter (· ≠ 0) ∧
        m.brk ≤ m1.brk ∧ (∀ a, a ≠ c → m1.deq a = m.deq a) ∧
        (∀ a, a ≤ m.brk → (∀ d ∈ ccs, a ≠ d.1) → m1.ent a = m.ent a) := by
  induction rest with
  | nil =>
    intro m ccs prev fuel hwf _ _ hfuel
    obtain ⟨k, rfl⟩ : ∃ k, fuel = k + 1 := ⟨fuel - 1, by simp at hfuel; omega⟩
    exact ⟨m, ccs, by simp [oxdeq_copy_loop], hwf, by simp, Nat.le_refl _, fun _ _ => rfl,
      fun _ _ _ => rfl⟩
  | cons r rs ih =>
    intro m ccs prev fuel hwf hseg hrest hfuel
    obtain ⟨k, rfl⟩ : ∃ k, fuel = k + 1 := ⟨fuel - 1, by simp at hfuel; omega⟩
    have hk : rs.length < k := by simp at hfuel; omega
    obtain ⟨hr0, hrb, hrc⟩ := hrest r (List.mem_cons_self _ _)
    have hread : m.ent r.1 = some { left := prev, right := firstAddr rs 0, data := r.2 } := hseg.1
    simp only [firstAddr_cons, oxdeq_copy_loop, hr0, hread, if_false]
    by_cases hx : copyOfData fcopy r.2 = 0
    · obtain ⟨m1, ccs1, hrun, hwf1, hseq, hbrk, hfd, hfe⟩ :=
        ih m ccs r.1 k hwf hseg.2 (fun x hx => hrest x (List.mem_cons_of_mem _ hx)) hk
      refine ⟨m1, ccs1, ?_, hwf1, ?_, hbrk, hfd, hfe⟩
      · simp only [hx, push_right_absent, hread]
        exact hrun
      · simpa [hx] using hseq
    · obtain ⟨m0, hpush, hwf0, hbrk0, hfd0, hfe0⟩ := push_right_WF hwf hx
      have hread0 : m0.ent r.1 = some { left := prev, right := firstAddr rs 0, data := r.2 } := by
        rw [hfe0 r.1 hrb (fun d hd => hrc d hd)]
        exact hread
      have hseg0 : dseg m0.ent r.1 rs 0 := by
        refine dseg_frame ?_ hseg.2
        intro x hx
        obtain ⟨-, hxb, hxc⟩ := hrest x (List.mem_cons_of_mem _ hx)
        exact hfe0 x.1 hxb hxc
      have hrest0 : ∀ x ∈ rs, x.1 ≠ 0 ∧ x.1 ≤ m0.brk ∧
          ∀ d ∈ ccs ++ [(m.brk + 1, copyOfData fcopy r.2)], x.1 ≠ d.1 := by
        intro x hx
        obtain ⟨hx0, hxb, hxc⟩ := hrest x (List.mem_cons_of_mem _ hx)
        refine ⟨hx0, by omega, ?_⟩
        intro d hd
        rcases List.mem_append.1 hd with h1 | h1
        · exact hxc d h1
        · simp at h1
          subst h1
          simp
          omega
      obtain ⟨m1, ccs1, hrun, hwf1, hseq, hbrk, hfd, hfe⟩ := ih m0 _ r.1 k hwf0 hseg0 hrest0 hk
      refine ⟨m1, ccs1, ?_, hwf1, ?_, by omega, ?_, ?_⟩
      · simp only [hpush, hread0]
        exact hrun
      · simpa [hx] using hseq
      · intro a ha
        rw [hfd a ha, hfd0 a ha]
      · intro a hab hac
        rw [hfe a (by omega) ?_, hfe0 a hab hac]
        intro d hd
        rcases List.mem_append.1 hd with h1 | h1
        · exact hac d h1
        · simp at h1
          subst h1
          simp
          omega

/-- Function `oxdeq_copy` on a queue satisfying the invariants returns, with enough fuel, a new
queue satisfying the invariants whose elements are the copies of the elements of `q` in
order, the absent copies left out; `q` itself still satisfies the invariants with the
same nodes. -/
theorem copy_WF {m : Mem} {q : Nat} {cs : List (Nat × Nat)} (h : WF m q cs)
    (fcopy : Option (Nat → Nat)) {fuel : Nat} (hfuel : cs.length < fuel) :
    ∃ m1 ccs, oxdeq_copy fuel q fcopy m = .ok (m.brk + 1, m1) ∧ WF m1 (m.brk + 1) ccs ∧
      ccs.map Prod.snd = ((cs.map Prod.snd).map (copyOfData fcopy)).filter (· ≠ 0) ∧
      WF m1 q cs := by
  obtain ⟨hq0, hqb, hends, hseg, hnd, hfresh⟩ := h
  obtain ⟨e, t, hdeq⟩ := ends_eq_some hends
  have hqc : q ≠ m.brk + 1 := by omega
  have hdeq0 : (oxdeq_alloc m).2.deq q = m.deq q := by
    simp [oxdeq_alloc, Heap.set_other _ _ hqc]
  by_cases hne : cs = []
  · subst hne
    refine ⟨(oxdeq_alloc m).2, [], ?_, alloc_WF m, by simp, ?_⟩
    · simp [oxdeq_copy, hq0, hdeq0, hdeq]
      rfl
    · refine ⟨hq0, by simp [oxdeq_alloc]; omega, ?_, trivial, by simp, by simp⟩
      simp only [ends, hdeq0]
      exact hends
  · have hlen : cs.length ≠ 0 := fun h0 => hne (List.length_eq_zero.1 h0)
    obtain ⟨m1, ccs, hrun, hwf1, hseq, hbrk, hfd, hfe⟩ :=
      copy_loop_spec fcopy (m.brk + 1) cs (oxdeq_alloc m).2 [] 0 fuel (alloc_WF m) hseg
        (fun r hr => ⟨(hfresh r hr).1, by have := (hfresh r hr).2; simp [oxdeq_alloc]; omega,
          by simp⟩) hfuel
    have hdeq1 : m1.deq q = some ⟨firstAddr cs 0, lastAddr cs 0, e, t, cs.length⟩ := by
      rw [hfd q hqc, hdeq0, hdeq]
    have hbrk0 : (oxdeq_alloc m).2.brk = m.brk + 1 := rfl
    have hent0 : (oxdeq_alloc m).2.ent = m.ent := rfl
    have hc1 : (oxdeq_alloc m).1 = m.brk + 1 := rfl
    simp only [oxdeq_copy, hc1, hq0, hdeq0, hdeq, hlen, hrun, hdeq1, if_false]
    refine ⟨_, ccs, rfl, ?_, by simpa using hseq, ?_⟩
    · obtain ⟨h1, h2, h3, h4, h5, h6⟩ := hwf1
      refine ⟨h1, h2, ?_, h4, h5, h6⟩
      have hcq : m.brk + 1 ≠ q := fun h => hqc h.symm
      simpa [ends, Heap.set_other _ _ hcq] using h3
    · refine ⟨hq0, by simp; omega, by simp [ends], ?_, hnd, ?_⟩
      · refine dseg_frame ?_ hseg
        intro d hd
        have := (hfresh d hd).2
        show m1.ent d.1 = m.ent d.1
        rw [hfe d.1 (by rw [hbrk0]; omega) (by simp), hent0]
      · intro d hd
        have := hfresh d hd
        exact ⟨this.1, by simp; omega⟩

theorem isPush_of_isPresentPush {op : Op} (h : op.isPresentPush = true) : op.isPush = true := by
  cases op <;> simp_all [Op.isPresentPush, Op.isPush]

/-- C9, counterexample: the queue holding the single element 1 has count 1, but its copy
through a copy function that returns the absent reference has count 0. -/
theorem C9_copy_drops_absent :
    ((runFresh [Op.push_right 1] Mem.empty).bind fun r =>
      (oxdeq_copy 2 1 (some fun _ => 0) r.1).bind fun r2 =>
        (oxdeq_number_of_entries r2.1 r2.2).map fun n => (oxdeq_number_of_entries 1 r.1, n))
      = .ok (.ok 1, 0) := by
  decide

/-- C9, amended: for a queue built from `oxdeq_alloc` by pushes of present elements and a
copy function `f`, `oxdeq_copy` returns (for any fuel above the count) a new queue that
satisfies the invariants and holds `f` of each element of `q` in the same order with the
absent results left out; when `f` returns a present reference for every element of `q`,
the copy holds exactly `f` of each element in order and has the count of `q`. -/
theorem C9_copy_with_function (m0 : Mem) (ops : List Op) (f : Nat → Nat) (fuel : Nat)
    (hpush : ∀ op ∈ ops, op.isPresentPush = true) (hfuel : ops.length < fuel) :
    ∃ m1 c m2 ccs, runFresh ops m0 = .ok (m1, []) ∧
      oxdeq_copy fuel (oxdeq_alloc m0).1 (some f) m1 = .ok (c, m2) ∧
      WF m2 c ccs ∧
      ccs.map Prod.snd = (((listRun ops []).1).map f).filter (· ≠ 0) ∧
      ((∀ x ∈ (listRun ops []).1, f x ≠ 0) →
        ccs.map Prod.snd = (listRun ops []).1.map f ∧
        oxdeq_number_of_entries c m2 = oxdeq_number_of_entries (oxdeq_alloc m0).1 m1) := by
  have hfilter : ops.filter Op.isPresentPush = ops := List.filter_eq_self.2 hpush
  obtain ⟨m1, cs1, hrun, hwf, hseq, hlen⟩ :=
    run_pushes ops _ [] (alloc_WF m0) (fun op hop => isPush_of_isPresentPush (hpush op hop))
  rw [hfilter] at hseq hlen
  simp only [List.map_nil, List.length_nil, Nat.zero_add] at hseq hlen
  obtain ⟨m2, ccs, hcopy, hwfc, hcseq, -⟩ := copy_WF hwf (some f) (hlen ▸ hfuel)
  have hf : copyOfData (some f) = f := rfl
  rw [hf, hseq] at hcseq
  refine ⟨m1, m1.brk + 1, m2, ccs, hrun, hcopy, hwfc, hcseq, ?_⟩
  intro hpres
  have hall : ((listRun ops []).1.map f).filter (· ≠ 0) = (listRun ops []).1.map f := by
    refine List.filter_eq_self.2 ?_
    intro y hy
    obtain ⟨x, hx, rfl⟩ := List.mem_map.1 hy
    simpa using hpres x hx
  rw [hall] at hcseq
  refine ⟨hcseq, ?_⟩
  rw [number_of_entries_WF hwfc, number_of_entries_WF hwf]
  have h1 : ccs.length = (listRun ops []).1.length := by
    have := congrArg List.length hcseq
    simpa using this
  have h2 : cs1.length = (listRun ops []).1.length := by
    have := congrArg List.length hseq
    simpa using this
  rw [h1, h2]

/-- C9 at the pushes `push_right 1; push_left 2` on an empty memory, the copy function
that adds 10, and fuel 3. -/
theorem C9_witness :
    (∀ op ∈ [Op.push_right 1, Op.push_left 2], op.isPresentPush = true) ∧
    [Op.push_right 1, Op.push_left 2].length < 3 ∧
    ∃ m1 c m2 ccs, runFresh [Op.push_right 1, Op.push_left 2] Mem.empty = .ok (m1, []) ∧
      oxdeq_copy 3 (oxdeq_alloc Mem.empty).1 (some (· + 10)) m1 = .ok (c, m2) ∧
      WF m2 c ccs ∧
      ccs.map Prod.snd =
        (((listRun [Op.push_right 1, Op.push_left 2] []).1).map (· + 10)).filter (· ≠ 0) ∧
      ((∀ x ∈ (listRun [Op.push_right 1, Op.push_left 2] []).1, x + 10 ≠ 0) →
        ccs.map Prod.snd = (listRun [Op.push_right 1, Op.push_left 2] []).1.map (· + 10) ∧
        oxdeq_number_of_entries c m2 = oxdeq_number_of_entries (oxdeq_alloc Mem.empty).1 m1) :=
  ⟨by decide, by decide,
    C9_copy_with_function Mem.empty [Op.push_right 1, Op.push_left 2] (· + 10) 3 (by decide)
      (by decide)⟩

/-! ### Absent references and empty queues -/

theorem ends_zero_pops {m : Mem} {q : Nat} (h : ends q m = some (0, 0, 0)) :
    oxdeq_peek_left q m = .ok 0 ∧ oxdeq_peek_right q m = .ok 0 ∧
    oxdeq_pop_left q m = .ok (0, m) ∧ oxdeq_pop_right q m = .ok (0, m) := by
  obtain ⟨e, t, hdeq⟩ := ends_eq_some h
  by_cases hq : q = 0
  · subst hq
    simp [oxdeq_peek_left, oxdeq_peek_right, oxdeq_pop_left, oxdeq_pop_right]
  · simp [oxdeq_peek_left, oxdeq_peek_right, oxdeq_pop_left, oxdeq_pop_right, hq, hdeq]

/-- C11: with an absent queue reference `oxdeq_number_of_entries` returns 0, both peeks and
both pops return absent, both pushes and `oxdeq_reverse` return absent, all leaving the
memory as it is, and `oxdeq_copy` returns a new non-null queue that is empty; on a queue
fresh from `oxdeq_alloc` both peeks and both pops return absent and leave the memory, hence
count 0 and both end references absent, as it is.  Nothing here faults, for any memory. -/
theorem C11_absent_and_empty_benign (m : Mem) (x fuel : Nat) (fcopy : Option (Nat → Nat)) :
    (oxdeq_number_of_entries 0 m = .ok 0 ∧
      oxdeq_peek_left 0 m = .ok 0 ∧ oxdeq_peek_right 0 m = .ok 0 ∧
      oxdeq_pop_left 0 m = .ok (0, m) ∧ oxdeq_pop_right 0 m = .ok (0, m) ∧
      oxdeq_push_left 0 x m = .ok (0, m) ∧ oxdeq_push_right 0 x m = .ok (0, m) ∧
      oxdeq_reverse fuel 0 m = .ok (0, m)) ∧
    (∃ c m1, oxdeq_copy fuel 0 fcopy m = .ok (c, m1) ∧ c ≠ 0 ∧ m.brk < c ∧ WF m1 c [] ∧
      oxdeq_number_of_entries c m1 = .ok 0) ∧
    (ends (oxdeq_alloc m).1 (oxdeq_alloc m).2 = some (0, 0, 0) ∧
      oxdeq_peek_left (oxdeq_alloc m).1 (oxdeq_alloc m).2 = .ok 0 ∧
      oxdeq_peek_right (oxdeq_alloc m).1 (oxdeq_alloc m).2 = .ok 0 ∧
      oxdeq_pop_left (oxdeq_alloc m).1 (oxdeq_alloc m).2 = .ok (0, (oxdeq_alloc m).2) ∧
      oxdeq_pop_right (oxdeq_alloc m).1 (oxdeq_alloc m).2 = .ok (0, (oxdeq_alloc m).2)) := by
  refine ⟨?_, ?_, ?_⟩
  · simp [oxdeq_number_of_entries, oxdeq_peek_left, oxdeq_peek_right, oxdeq_pop_left,
      oxdeq_pop_right, oxdeq_push_left, oxdeq_push_right, oxdeq_reverse]
  · refine ⟨(oxdeq_alloc m).1, (oxdeq_alloc m).2, by simp [oxdeq_copy], by simp [oxdeq_alloc],
      by simp [oxdeq_alloc], alloc_WF m, ?_⟩
    simpa using number_of_entries_WF (alloc_WF m)
  · have h : ends (oxdeq_alloc m).1 (oxdeq_alloc m).2 = some (0, 0, 0) := (alloc_WF m).2.2.1
    exact ⟨h, ends_zero_pops h⟩

/-! ### Reversal keeps the nodes and their links -/

theorem links_swap {ent : Heap oxqent} {e t : Nat} {ne nt : oxqent} (he : ent e = some ne)
    (ht : ent t = some nt) (d1 d2 : Nat) (a : Nat) :
    links ((ent.set e (some { left := ne.left, right := ne.right, data := d1 })).set t
      (some { left := nt.left, right := nt.right, data := d2 })) a = links ent a := by
  unfold links
  by_cases hat : a = t
  · subst hat
    simp [ht]
  · rw [Heap.set_other _ _ hat]
    by_cases hae : a = e
    · subst hae
      simp [he]
    · rw [Heap.set_other _ _ hae]

/-- Whatever the heap, when the swapping loop returns, every node is live exactly when it
was and has the links it had. -/
theorem reverse_loop_links (fuel : Nat) :
    ∀ (e t : Nat) (ent ent1 : Heap oxqent), oxdeq_reverse_loop fuel e t ent = .ok ent1 →
      ∀ a, links ent1 a = links ent a := by
  induction fuel with
  | zero =>
    intro e t ent ent1 h
    simp [oxdeq_reverse_loop] at h
  | succ k ih =>
    intro e t ent ent1 h a
    unfold oxdeq_reverse_loop at h
    by_cases het : e = t
    · simp only [het, if_true, Result.ok.injEq] at h
      rw [← h]
    · simp only [het, if_false] at h
      cases hne : ent e with
      | none => simp [hne] at h
      | some ne =>
        cases hnt : ent t with
        | none => simp [hne, hnt] at h
        | some nt =>
          simp only [hne, hnt] at h
          by_cases hr : ne.right = t
          · simp only [hr, if_true, Result.ok.injEq] at h
            rw [← h, ← hr]
            exact links_swap hne (hr ▸ hnt) _ _ a
          · simp only [hr, if_false] at h
            rw [ih _ _ _ _ h a]
            exact links_swap hne hnt _ _ a

/-- On a queue satisfying the invariants `oxdeq_reverse` returns `q` with enough fuel; the
header keeps its end references and count and has null cursors, the nodes keep their order
and links and carry the data in reverse order, and everything else is untouched. -/
theorem reverse_WF {m : Mem} {q : Nat} {cs : List (Nat × Nat)} (h : WF m q cs)
    {fuel : Nat} (hfuel : cs.length < fuel) :
    ∃ m1, oxdeq_reverse fuel q m = .ok (q, m1) ∧ WF m1 q (revData cs) ∧
      ends q m1 = ends q m ∧ cursors q m1 = some (0, 0) ∧
      (∀ a, links m1.ent a = links m.ent a) ∧
      (∀ a, a ∉ cs.map Prod.fst → m1.ent a = m.ent a) ∧
      m1.brk = m.brk ∧ (∀ a, a ≠ q → m1.deq a = m.deq a) := by
  obtain ⟨hq0, hqb, hends, hseg, hnd, hfresh⟩ := h
  obtain ⟨e, t, hdeq⟩ := ends_eq_some hends
  have hloop : ∃ ent1, oxdeq_reverse_loop fuel (firstAddr cs 0) (lastAddr cs 0) m.ent = .ok ent1 ∧
      dseg ent1 0 (revData cs) 0 ∧ ∀ a, a ∉ cs.map Prod.fst → ent1 a = m.ent a := by
    by_cases hne : cs = []
    · subst hne
      obtain ⟨k, rfl⟩ : ∃ k, fuel = k + 1 := ⟨fuel - 1, by simp at hfuel; omega⟩
      exact ⟨m.ent, by simp [oxdeq_reverse_loop], by simp [revData, dseg], fun _ _ => rfl⟩
    · exact reverse_loop_spec cs.length cs (Nat.le_refl _) hne m.ent 0 0 fuel 0 0
        (Nat.le_of_lt hfuel) hseg hnd
  obtain ⟨ent1, hrun, hseg1, hframe⟩ := hloop
  have hlinks := reverse_loop_links fuel _ _ _ _ hrun
  simp only [oxdeq_reverse, hq0, hdeq, hrun, if_false]
  refine ⟨_, rfl, ⟨hq0, hqb, ?_, hseg1, ?_, ?_⟩, ?_, ?_, hlinks, hframe, rfl, ?_⟩
  · simp [ends, firstAddr_congr (revData_map_fst cs), lastAddr_congr (revData_map_fst cs),
      revData_length]
  · rw [revData_map_fst]
    exact hnd
  · intro c hc
    have hmem : c.1 ∈ cs.map Prod.fst := by
      rw [← revData_map_fst]
      exact List.mem_map_of_mem Prod.fst hc
    obtain ⟨d, hd, hde⟩ := List.mem_map.1 hmem
    rw [← hde]
    exact hfresh d hd
  · rw [hends]
    simp [ends]
  · simp [cursors]
  · intro a ha
    simp [Heap.set_other _ _ ha]

theorem revData_revData (cs : List (Nat × Nat)) : revData (revData cs) = cs := by
  have h1 := revData_map_fst cs
  have h2 := revData_map_snd cs
  unfold revData at h1 h2 ⊢
  rw [h1, h2, List.reverse_reverse, List.zip_map']
  simp


/-! ### Chains linked in one direction -/

theorem chain_frame {link : oxqent → Nat} {ent ent1 : Heap oxqent} {cs : List (Nat × Nat)}
    {endp : Nat} (hagree : ∀ c ∈ cs, ent1 c.1 = ent c.1) (h : chain link ent cs endp) :
    chain link ent1 cs endp := by
  induction cs with
  | nil => trivial
  | cons x xs ih =>
    refine ⟨?_, ih (fun c hc => hagree c (List.mem_cons_of_mem _ hc)) h.2⟩
    rw [hagree x (List.mem_cons_self _ _)]
    exact h.1

theorem dseg_chain_right {ent : Heap oxqent} {cs : List (Nat × Nat)} {prev next : Nat}
    (h : dseg ent prev cs next) : chain oxqent.right ent cs next := by
  induction cs generalizing prev with
  | nil => trivial
  | cons x xs ih => exact ⟨by simp [h.1], ih h.2⟩

theorem firstAddr_reverse (cs : List (Nat × Nat)) (d : Nat) :
    firstAddr cs.reverse d = lastAddr cs d := by
  induction cs using List.reverseRecOn with
  | nil => rfl
  | append_singleton xs x _ => simp

theorem lastAddr_reverse (cs : List (Nat × Nat)) (d : Nat) :
    lastAddr cs.reverse d = firstAddr cs d := by
  have := firstAddr_reverse cs.reverse d
  rw [List.reverse_reverse] at this
  exact this.symm

theorem dseg_chain_left {ent : Heap oxqent} {cs : List (Nat × Nat)} {prev next : Nat}
    (h : dseg ent prev cs next) : chain oxqent.left ent cs.reverse prev := by
  induction cs using List.reverseRecOn generalizing next with
  | nil => trivial
  | append_singleton xs x ih =>
    obtain ⟨h1, h2⟩ := dseg_snoc.1 h
    rw [List.reverse_append]
    exact ⟨by simp [h2, firstAddr_reverse], ih h1⟩

/-- Walking the right links of a right-linked chain that ends in null collects its data. -/
theorem walk_right_chain {ent : Heap oxqent} (cs : List (Nat × Nat)) :
    ∀ (fuel : Nat), chain oxqent.right ent cs 0 → (∀ c ∈ cs, c.1 ≠ 0) → cs.length < fuel →
      walk_right ent fuel (firstAddr cs 0) = .ok (cs.map Prod.snd) := by
  induction cs with
  | nil =>
    intro fuel _ _ hf
    obtain ⟨k, rfl⟩ : ∃ k, fuel = k + 1 := ⟨fuel - 1, by simp at hf; omega⟩
    simp [walk_right]
  | cons x xs ih =>
    intro fuel hch hne hf
    obtain ⟨k, rfl⟩ : ∃ k, fuel = k + 1 := ⟨fuel - 1, by simp at hf; omega⟩
    have hx0 := hne x (List.mem_cons_self _ _)
    obtain ⟨hx, hrest⟩ := hch
    cases hn : ent x.1 with
    | none => simp [hn] at hx
    | some n =>
      simp only [hn, Option.map_some', Option.some.injEq, Prod.mk.injEq] at hx
      have hk : xs.length < k := by simp at hf; omega
      simp [walk_right, hx0, hn, hx.1, hx.2,
        ih k hrest (fun c hc => hne c (List.mem_cons_of_mem _ hc)) hk, Result.map]

theorem elements_WF {m : Mem} {q : Nat} {cs : List (Nat × Nat)} (h : WF m q cs)
    {fuel : Nat} (hfuel : cs.length < fuel) : elements fuel q m = .ok (cs.map Prod.snd) := by
  obtain ⟨hq0, hqb, hends, hseg, hnd, hfresh⟩ := h
  obtain ⟨e, t, hdeq⟩ := ends_eq_some hends
  simp only [elements, hdeq]
  exact walk_right_chain cs fuel (dseg_chain_right hseg) (fun c hc => (hfresh c hc).1) hfuel

/-- C12: on a queue satisfying the invariants, of any count, two calls of `oxdeq_reverse`
both return (with fuel above the count) and leave the queue with the same nodes carrying
the same element references in the same order, and with the same count, as before. -/
theorem C12_reverse_involution (m : Mem) (q : Nat) (cs : List (Nat × Nat)) (h : WF m q cs)
    (fuel : Nat) (hfuel : cs.length < fuel) :
    ∃ m1 m2, oxdeq_reverse fuel q m = .ok (q, m1) ∧ oxdeq_reverse fuel q m1 = .ok (q, m2) ∧
      WF m2 q cs ∧
      elements fuel q m2 = elements fuel q m ∧ elements fuel q m = .ok (cs.map Prod.snd) ∧
      oxdeq_number_of_entries q m2 = oxdeq_number_of_entries q m := by
  obtain ⟨m1, hr1, hwf1, -⟩ := reverse_WF h hfuel
  obtain ⟨m2, hr2, hwf2, -⟩ := reverse_WF hwf1 (by rw [revData_length]; exact hfuel)
  rw [revData_revData] at hwf2
  refine ⟨m1, m2, hr1, hr2, hwf2, ?_, elements_WF h hfuel, ?_⟩
  · rw [elements_WF hwf2 hfuel, elements_WF h hfuel]
  · rw [number_of_entries_WF hwf2, number_of_entries_WF h]

/-- C12 at the three-element queue of `exampleMem` with fuel 4. -/
theorem C12_witness :
    WF exampleMem 1 exampleCells ∧ exampleCells.length < 4 ∧
    ∃ m1 m2, oxdeq_reverse 4 1 exampleMem = .ok (1, m1) ∧ oxdeq_reverse 4 1 m1 = .ok (1, m2) ∧
      WF m2 1 exampleCells ∧
      elements 4 1 m2 = elements 4 1 exampleMem ∧
      elements 4 1 exampleMem = .ok (exampleCells.map Prod.snd) ∧
      oxdeq_number_of_entries 1 m2 = oxdeq_number_of_entries 1 exampleMem :=
  ⟨by decide, by decide,
    C12_reverse_involution exampleMem 1 exampleCells (by decide) 4 (by decide)⟩

/-- C19: on a queue satisfying the invariants `oxdeq_reverse` returns `q` (with fuel above
the count) and leaves the count and both end references as they were, every address live
exactly when it was and every node with the left and right links it had; the nodes outside
the queue and the other headers are untouched, the queue still satisfies the invariants on
the same nodes, the element references it carries are a rearrangement of those before, and
the cursors `e` and `t` are null. -/
theorem C19_reverse_changes_only_payloads (m : Mem) (q : Nat) (cs : List (Nat × Nat))
    (h : WF m q cs) (fuel : Nat) (hfuel : cs.length < fuel) :
    ∃ m1, oxdeq_reverse fuel q m = .ok (q, m1) ∧ ends q m1 = ends q m ∧
      (∀ a, links m1.ent a = links m.ent a) ∧
      (∀ a, a ∉ cs.map Prod.fst → m1.ent a = m.ent a) ∧
      (∀ a, a ≠ q → m1.deq a = m.deq a) ∧ m1.brk = m.brk ∧
      WF m1 q (revData cs) ∧ (revData cs).map Prod.fst = cs.map Prod.fst ∧
      ((revData cs).map Prod.snd).Perm (cs.map Prod.snd) ∧
      cursors q m1 = some (0, 0) := by
  obtain ⟨m1, hr, hwf, hends, hcur, hlinks, hframe, hbrk, hdeq⟩ := reverse_WF h hfuel
  refine ⟨m1, hr, hends, hlinks, hframe, hdeq, hbrk, hwf, revData_map_fst cs, ?_, hcur⟩
  rw [revData_map_snd]
  exact List.reverse_perm _

/-- C19 at the three-element queue of `exampleMem` with fuel 4. -/
theorem C19_witness :
    WF exampleMem 1 exampleCells ∧ exampleCells.length < 4 ∧
    ∃ m1, oxdeq_reverse 4 1 exampleMem = .ok (1, m1) ∧ ends 1 m1 = ends 1 exampleMem ∧
      (∀ a, links m1.ent a = links exampleMem.ent a) ∧
      (∀ a, a ∉ exampleCells.map Prod.fst → m1.ent a = exampleMem.ent a) ∧
      (∀ a, a ≠ 1 → m1.deq a = exampleMem.deq a) ∧ m1.brk = exampleMem.brk ∧
      WF m1 1 (revData exampleCells) ∧
      (revData exampleCells).map Prod.fst = exampleCells.map Prod.fst ∧
      ((revData exampleCells).map Prod.snd).Perm (exampleCells.map Prod.snd) ∧
      cursors 1 m1 = some (0, 0) :=
  ⟨by decide, by decide,
    C19_reverse_changes_only_payloads exampleMem 1 exampleCells (by decide) 4 (by decide)⟩

/-! ### Draining at one end -/

theorem run_append (q : Nat) (ops1 ops2 : List Op) :
    ∀ (m m1 m2 : Mem) (o1 o2 : List Nat), run q ops1 m = .ok (m1, o1) →
      run q ops2 m1 = .ok (m2, o2) → run q (ops1 ++ ops2) m = .ok (m2, o1 ++ o2) := by
  induction ops1 with
  | nil =>
    intro m m1 m2 o1 o2 h1 h2
    simp only [run, Result.ok.injEq, Prod.mk.injEq] at h1
    obtain ⟨rfl, rfl⟩ := h1
    simpa using h2
  | cons op ops ih =>
    intro m m1 m2 o1 o2 h1 h2
    simp only [run] at h1
    cases hs : step q m op with
    | fault => simp [hs] at h1
    | timeout => simp [hs] at h1
    | ok r =>
      obtain ⟨ma, out⟩ := r
      simp only [hs] at h1
      cases hr : run q ops ma with
      | fault => simp [hr] at h1
      | timeout => simp [hr] at h1
      | ok r1 =>
        obtain ⟨mb, outs⟩ := r1
        simp only [hr, Result.ok.injEq, Prod.mk.injEq] at h1
        obtain ⟨rfl, rfl⟩ := h1
        simp [run, hs, ih ma mb m2 outs o2 hr h2]

theorem drained_of_ends {m : Mem} {q : Nat} (h : ends q m = some (0, 0, 0)) : drained q m :=
  ⟨h, (ends_zero_pops h).2.2.1, (ends_zero_pops h).2.2.2⟩

/-- Popping on the left as many times as there are nodes, on a queue whose nodes are chained
by their right links and carry present elements, returns the elements from left to right
and leaves the queue in the empty state. -/
theorem drain_left {q : Nat} (hq : q ≠ 0) (cs : List (Nat × Nat)) :
    ∀ (m : Mem), ends q m = some (firstAddr cs 0, lastAddr cs 0, cs.length) →
      chain oxqent.right m.ent cs 0 → (cs.map Prod.fst).Nodup →
      (∀ c ∈ cs, c.1 ≠ 0 ∧ c.2 ≠ 0) →
      ∃ m1, run q (List.replicate cs.length Op.pop_left) m = .ok (m1, cs.map Prod.snd) ∧
        ends q m1 = some (0, 0, 0) := by
  induction cs with
  | nil =>
    intro m hends _ _ _
    exact ⟨m, rfl, hends⟩
  | cons c cs ih =>
    intro m hends hch hnd hne
    obtain ⟨e, t, hdeq⟩ := ends_eq_some hends
    obtain ⟨hc0, hcd⟩ := hne c (List.mem_cons_self _ _)
    obtain ⟨hc, hrest⟩ := hch
    cases hn : m.ent c.1 with
    | none => simp [hn] at hc
    | some n =>
      simp only [hn, Option.map_some', Option.some.injEq, Prod.mk.injEq] at hc
      have hpop : ∃ m0, oxdeq_pop_left q m = .ok (c.2, m0) ∧
          ends q m0 = some (firstAddr cs 0, lastAddr cs 0, cs.length) ∧
          m0.ent = m.ent.set c.1 none := by
        simp only [oxdeq_pop_left, hq, hdeq, firstAddr_cons, hc0, hn, hc.1, hc.2, hcd, if_false]
        refine ⟨_, rfl, ?_, rfl⟩
        cases cs with
        | nil => simp [ends, size_dec]
        | cons d ds =>
          have hd0 := (hne d (by simp)).1
          simp [ends, hd0, size_dec]
      obtain ⟨m0, hpop0, hends0, hent0⟩ := hpop
      have hch0 : chain oxqent.right m0.ent cs 0 := by
        refine chain_frame ?_ hrest
        intro d hd
        have hdc : d.1 ≠ c.1 := by
          intro heq
          simp only [List.map_cons, List.nodup_cons] at hnd
          exact hnd.1 (heq ▸ List.mem_map_of_mem Prod.fst hd)
        rw [hent0, Heap.set_other _ _ hdc]
      have hnd0 : (cs.map Prod.fst).Nodup := by
        simp only [List.map_cons, List.nodup_cons] at hnd
        exact hnd.2
      obtain ⟨m1, hrun, hends1⟩ :=
        ih m0 hends0 hch0 hnd0 (fun d hd => hne d (List.mem_cons_of_mem _ hd))
      refine ⟨m1, ?_, hends1⟩
      simp [List.replicate, run, step, hpop0, hrun]

/-- Popping on the right as many times as there are nodes, on a queue whose nodes (listed
here from right to left) are chained by their left links and carry present elements,
returns the elements from right to left and leaves the queue in the empty state. -/
theorem drain_right {q : Nat} (hq : q ≠ 0) (rs : List (Nat × Nat)) :
    ∀ (m : Mem), ends q m = some (lastAddr rs 0, firstAddr rs 0, rs.length) →
      chain oxqent.left m.ent rs 0 → (rs.map Prod.fst).Nodup →
      (∀ c ∈ rs, c.1 ≠ 0 ∧ c.2 ≠ 0) →
      ∃ m1, run q (List.replicate rs.length Op.pop_right) m = .ok (m1, rs.map Prod.snd) ∧
        ends q m1 = some (0, 0, 0) := by
  induction rs with
  | nil =>
    intro m hends _ _ _
    exact ⟨m, rfl, hends⟩
  | cons c cs ih =>
    intro m hends hch hnd hne
    obtain ⟨e, t, hdeq⟩ := ends_eq_some hends
    obtain ⟨hc0, hcd⟩ := hne c (List.mem_cons_self _ _)
    obtain ⟨hc, hrest⟩ := hch
    cases hn : m.ent c.1 with
    | none => simp [hn] at hc
    | some n =>
      simp only [hn, Option.map_some', Option.some.injEq, Prod.mk.injEq] at hc
      have hpop : ∃ m0, oxdeq_pop_right q m = .ok (c.2, m0) ∧
          ends q m0 = some (lastAddr cs 0, firstAddr cs 0, cs.length) ∧
          m0.ent = m.ent.set c.1 none := by
        simp only [oxdeq_pop_right, hq, hdeq, firstAddr_cons, hc0, hn, hc.1, hc.2, hcd, if_false]
        refine ⟨_, rfl, ?_, rfl⟩
        cases cs with
        | nil => simp [ends, size_dec]
        | cons d ds =>
          have hd0 := (hne d (by simp)).1
          simp [ends, hd0, size_dec]
      obtain ⟨m0, hpop0, hends0, hent0⟩ := hpop
      have hch0 : chain oxqent.left m0.ent cs 0 := by
        refine chain_frame ?_ hrest
        intro d hd
        have hdc : d.1 ≠ c.1 := by
          intro heq
          simp only [List.map_cons, List.nodup_cons] at hnd
          exact hnd.1 (heq ▸ List.mem_map_of_mem Prod.fst hd)
        rw [hent0, Heap.set_other _ _ hdc]
      have hnd0 : (cs.map Prod.fst).Nodup := by
        simp only [List.map_cons, List.nodup_cons] at hnd
        exact hnd.2
      obtain ⟨m1, hrun, hends1⟩ :=
        ih m0 hends0 hch0 hnd0 (fun d hd => hne d (List.mem_cons_of_mem _ hd))
      refine ⟨m1, ?_, hends1⟩
      simp [List.replicate, run, step, hpop0, hrun]
/-- A queue satisfying the invariants whose elements are all present can be drained from
either end: popping on the left returns the elements from left to right, popping on the
right returns them from right to left, and both leave the empty state. -/
theorem drain_WF {m : Mem} {q : Nat} {cs : List (Nat × Nat)} (h : WF m q cs)
    (hdata : ∀ x ∈ cs.map Prod.snd, x ≠ 0) :
    (∃ m1, run q (List.replicate cs.length Op.pop_left) m = .ok (m1, cs.map Prod.snd) ∧
      drained q m1) ∧
    (∃ m1, run q (List.replicate cs.length Op.pop_right) m = .ok (m1, (cs.map Prod.snd).reverse) ∧
      drained q m1) := by
  obtain ⟨hq0, hqb, hends, hseg, hnd, hfresh⟩ := h
  have hne : ∀ c ∈ cs, c.1 ≠ 0 ∧ c.2 ≠ 0 :=
    fun c hc => ⟨(hfresh c hc).1, hdata c.2 (List.mem_map_of_mem Prod.snd hc)⟩
  constructor
  · obtain ⟨m1, hrun, hends1⟩ := drain_left hq0 cs m hends (dseg_chain_right hseg) hnd hne
    exact ⟨m1, hrun, drained_of_ends hends1⟩
  · have hends2 : ends q m =
        some (lastAddr cs.reverse 0, firstAddr cs.reverse 0, cs.reverse.length) := by
      rw [lastAddr_reverse, firstAddr_reverse, List.length_reverse]
      exact hends
    have hnd2 : (cs.reverse.map Prod.fst).Nodup := by
      rw [List.map_reverse]
      exact List.nodup_reverse.2 hnd
    obtain ⟨m1, hrun, hends1⟩ := drain_right hq0 cs.reverse m hends2 (dseg_chain_left hseg) hnd2
      (fun c hc => hne c (List.mem_reverse.1 hc))
    rw [List.length_reverse, List.map_reverse] at hrun
    exact ⟨m1, hrun, drained_of_ends hends1⟩

theorem listRun_push_right (xs ys : List Nat) :
    (listRun (xs.map Op.push_right) ys).1 = ys ++ xs := by
  induction xs generalizing ys with
  | nil => simp [listRun]
  | cons x xs ih => simp [listRun, listStep, ih]

theorem listRun_push_left (xs ys : List Nat) :
    (listRun (xs.map Op.push_left) ys).1 = xs.reverse ++ ys := by
  induction xs generalizing ys with
  | nil => simp [listRun]
  | cons x xs ih => simp [listRun, listStep, ih]

/-- Pushing present elements on one side of a queue fresh from `oxdeq_alloc` and then
popping as often on the side `pop` returns what draining the list model returns. -/
theorem push_then_drain (m0 : Mem) (xs : List Nat) (hx : ∀ x ∈ xs, x ≠ 0)
    (push : Nat → Op) (hpush : ∀ x, x ≠ 0 → (push x).isPresentPush = true) (seq : List Nat)
    (hseq : (listRun (xs.map push) []).1 = seq) (hlen : seq.length = xs.length)
    (hmem : ∀ x ∈ seq, x ∈ xs) :
    (∃ m1, runFresh (xs.map push ++ List.replicate xs.length Op.pop_left) m0 = .ok (m1, seq) ∧
      drained (oxdeq_alloc m0).1 m1) ∧
    (∃ m1, runFresh (xs.map push ++ List.replicate xs.length Op.pop_right) m0
        = .ok (m1, seq.reverse) ∧
      drained (oxdeq_alloc m0).1 m1) := by
  have hall : ∀ op ∈ xs.map push, op.isPresentPush = true := by
    intro op hop
    obtain ⟨x, hxm, rfl⟩ := List.mem_map.1 hop
    exact hpush x (hx x hxm)
  have hfilter : (xs.map push).filter Op.isPresentPush = xs.map push :=
    List.filter_eq_self.2 hall
  obtain ⟨ma, cs, hrun, hwf, hcs, -⟩ :=
    run_pushes (xs.map push) _ [] (alloc_WF m0) (fun op hop => isPush_of_isPresentPush (hall op hop))
  rw [hfilter] at hcs
  simp only [List.map_nil] at hcs
  rw [hseq] at hcs
  have hcslen : cs.length = xs.length := by
    rw [← hlen, ← hcs, List.length_map]
  have hdata : ∀ x ∈ cs.map Prod.snd, x ≠ 0 := by
    rw [hcs]
    exact fun x hxm => hx x (hmem x hxm)
  obtain ⟨⟨m1, hl, hdl⟩, ⟨m2, hr, hdr⟩⟩ := drain_WF hwf hdata
  rw [hcslen, hcs] at hl hr
  exact ⟨⟨m1, by simpa [runFresh] using run_append _ _ _ _ _ _ _ _ hrun hl, hdl⟩,
    ⟨m2, by simpa [runFresh] using run_append _ _ _ _ _ _ _ _ hrun hr, hdr⟩⟩

/-- C20: for every list `xs` of present elements and every starting memory, pushing `xs` in
order with `oxdeq_push_right` on a new queue and then calling `oxdeq_pop_left` as many times
returns the elements in push order, and calling `oxdeq_pop_right` as many times instead
returns them in reverse push order; after `oxdeq_push_left` it is the other way round.  In
all four cases the run returns, the queue ends with both end references absent and count
0, and one more pop at either end returns absent. -/
theorem C20_same_end_draining (m0 : Mem) (xs : List Nat) (hx : ∀ x ∈ xs, x ≠ 0) :
    (∃ m1, runFresh (xs.map Op.push_right ++ List.replicate xs.length Op.pop_left) m0
        = .ok (m1, xs) ∧ drained (oxdeq_alloc m0).1 m1) ∧
    (∃ m1, runFresh (xs.map Op.push_right ++ List.replicate xs.length Op.pop_right) m0
        = .ok (m1, xs.reverse) ∧ drained (oxdeq_alloc m0).1 m1) ∧
    (∃ m1, runFresh (xs.map Op.push_left ++ List.replicate xs.length Op.pop_right) m0
        = .ok (m1, xs) ∧ drained (oxdeq_alloc m0).1 m1) ∧
    (∃ m1, runFresh (xs.map Op.push_left ++ List.replicate xs.length Op.pop_left) m0
        = .ok (m1, xs.reverse) ∧ drained (oxdeq_alloc m0).1 m1) := by
  have hr := push_then_drain m0 xs hx Op.push_right
    (fun x hx0 => by simp [Op.isPresentPush, hx0]) xs (by simp [listRun_push_right]) rfl
    (fun _ h => h)
  have hl := push_then_drain m0 xs hx Op.push_left
    (fun x hx0 => by simp [Op.isPresentPush, hx0]) xs.reverse (by simp [listRun_push_left])
    (by simp) (fun _ h => List.mem_reverse.1 h)
  rw [List.reverse_reverse] at hl
  exact ⟨hr.1, hr.2, hl.2, hl.1⟩

/-- C20 at the elements 4, 5, 6 on an empty memory. -/
theorem C20_witness :
    (∀ x ∈ [4, 5, 6], x ≠ 0) ∧
    (∃ m1, runFresh ([4, 5, 6].map Op.push_right ++ List.replicate [4, 5, 6].length Op.pop_left)
        Mem.empty = .ok (m1, [4, 5, 6]) ∧ drained (oxdeq_alloc Mem.empty).1 m1) ∧
    (∃ m1, runFresh ([4, 5, 6].map Op.push_right ++ List.replicate [4, 5, 6].length Op.pop_right)
        Mem.empty = .ok (m1, [4, 5, 6].reverse) ∧ drained (oxdeq_alloc Mem.empty).1 m1) ∧
    (∃ m1, runFresh ([4, 5, 6].map Op.push_left ++ List.replicate [4, 5, 6].length Op.pop_right)
        Mem.empty = .ok (m1, [4, 5, 6]) ∧ drained (oxdeq_alloc Mem.empty).1 m1) ∧
    (∃ m1, runFresh ([4, 5, 6].map Op.push_left ++ List.replicate [4, 5, 6].length Op.pop_left)
        Mem.empty = .ok (m1, [4, 5, 6].reverse) ∧ drained (oxdeq_alloc Mem.empty).1 m1) :=
  ⟨by decide, C20_same_end_draining Mem.empty [4, 5, 6] (by decide)⟩

/-! ### The links after a pop -/

/-- C18, evaluated at `push_right(1); push_right(2); pop_left` on a new queue at address 1:
the pop returns 1 and the queue is non-empty with count 1 and both end references on the
node at address 3, which carries 2; but the left link of that leftmost node is not absent,
it is the address 2 of the node that the pop freed. -/
theorem C18_stale_link_after_pop :
    (runFresh [Op.push_right 1, Op.push_right 2, Op.pop_left] Mem.empty).map
      (fun r => (r.2, ends 1 r.1, r.1.ent 3, r.1.ent 2))
      = .ok ([1], some (3, 3, 1), some { left := 2, right := 0, data := 2 }, none) := by
  decide

/-! ### Value constructors -/

/-- C14: for every text `s` (possibly absent) and null flag `n`, `oxval_alloc('t', n, s)`
returns a value of kind `oxtText`; its null flag is set exactly when `n` is non-zero or `s`
is absent; when it is not set the stored text is `s` and the stored length is the length of
`s`, and when it is set the stored text is empty and the stored length is 0. -/
theorem C14_text_construction (fuel : Nat) (n : Int) (s : Option (List Nat))
    (rest : List va_item) (vm : VMem) :
    ∃ v vm1 value length isNull,
      oxval_alloc fuel 't' n (.str s :: rest) vm = .ret (v, vm1) ∧
      value_at v vm1 = some { kind := .oxtText, u := .text value length isNull } ∧
      (isNull ≠ 0 ↔ (n ≠ 0 ∨ s = none)) ∧
      (isNull = 0 → s = some value ∧ length = value.length) ∧
      (isNull ≠ 0 → value = [] ∧ length = 0) := by
  by_cases hn : n = 0
  · cases s with
    | none =>
      exact ⟨_, _, [], 0, -1, by simp [oxval_alloc, va_fetch, hn]; rfl,
        by simp [value_at, oxval_alloc_text, malloc_val], by simp, by simp, by simp⟩
    | some cs =>
      exact ⟨_, _, cs, cs.length, 0, by simp [oxval_alloc, va_fetch, hn]; rfl,
        by simp [value_at, oxval_alloc_text, malloc_val], by simp [hn], by simp, by simp⟩
  · exact ⟨_, _, [], 0, -1, by simp [oxval_alloc, va_fetch, hn]; rfl,
      by simp [value_at, oxval_alloc_text, malloc_val], by simp [hn], by simp, by simp⟩

/-- C15: for every integer `i`, real `r` and null flag `n`, `oxval_alloc('i', n, i)` returns
a value of kind `oxtNumber` with subkind `oxtInteger` that stores `i`, and
`oxval_alloc('d', n, r)` returns one with subkind `oxtReal` that stores `r`; in both the
null flag is `-1` when `n` is non-zero and `0` otherwise, so it is set exactly when `n` is
non-zero, and the subkind is the same for every `n`. -/
theorem C15_number_construction (fuel : Nat) (n : Int) (i : Int) (r : c_double)
    (rest : List va_item) (vm : VMem) :
    (∃ v vm1, oxval_alloc fuel 'i' n (.int i :: rest) vm = .ret (v, vm1) ∧
      value_at v vm1 =
        some { kind := .oxtNumber, u := .number (.integer i) (if n ≠ 0 then -1 else 0) .oxtInteger }) ∧
    (∃ v vm1, oxval_alloc fuel 'd' n (.double r :: rest) vm = .ret (v, vm1) ∧
      value_at v vm1 =
        some { kind := .oxtNumber, u := .number (.real r) (if n ≠ 0 then -1 else 0) .oxtReal }) ∧
    (((if n ≠ 0 then -1 else 0 : Int) ≠ 0) ↔ n ≠ 0) ∧
    made (oxval_alloc fuel 'i' 0 (.int 5 :: rest) vm) =
      some { kind := .oxtNumber, u := .number (.integer 5) 0 .oxtInteger } := by
  refine ⟨⟨_, _, by simp [oxval_alloc, va_fetch]; rfl, ?_⟩, ⟨_, _, by simp [oxval_alloc, va_fetch]; rfl, ?_⟩, ?_, ?_⟩
  · simp [value_at, oxval_alloc_integer, malloc_val, va_locals.zero]
  · simp [value_at, oxval_alloc_real, malloc_val, va_locals.zero]
  · by_cases hn : n = 0 <;> simp [hn]
  · simp [made, oxval_alloc, va_fetch, value_at, oxval_alloc_integer, malloc_val, va_locals.zero]

/-- C17: the null flag does not reach a Boolean, a Symbol or a Queue: for any two flags
`n1` and `n2` and the same arguments and memory, `oxval_alloc` with selector `b`, `s` or
`q` has the same outcome, memory included.  A Boolean stores `-1` for a non-zero argument
and `0` for zero; a Symbol stores a copy of the name, empty for an absent name, and the
value reference it was given. -/
theorem C17_null_flag_ignored (fuel : Nat) (n1 n2 : Int) (ap : List va_item) (vm : VMem)
    (p : Int) (name : Option (List Nat)) (ref : Nat) :
    oxval_alloc fuel 'b' n1 ap vm = oxval_alloc fuel 'b' n2 ap vm ∧
    oxval_alloc fuel 's' n1 ap vm = oxval_alloc fuel 's' n2 ap vm ∧
    oxval_alloc fuel 'q' n1 ap vm = oxval_alloc fuel 'q' n2 ap vm ∧
    made (oxval_alloc fuel 'b' n1 (.int p :: ap) vm)
      = some { kind := .oxtBool, u := .boolean (if p ≠ 0 then -1 else 0) } ∧
    made (oxval_alloc fuel 's' n1 (.str name :: .ptr ref :: ap) vm)
      = some { kind := .oxtSymbol, u := .symbol (name.getD []) ref } := by
  refine ⟨by simp [oxval_alloc], by simp [oxval_alloc], by simp [oxval_alloc], ?_, ?_⟩
  · simp [made, oxval_alloc, va_fetch, value_at, oxval_alloc_boolean, malloc_val, va_locals.zero]
  · simp [made, oxval_alloc, va_fetch, value_at, oxval_alloc_symbol, malloc_val, va_locals.zero]

/-! ### What one call can touch -/

end Oxdeq
